import Mathlib

/-!
Verification of the oodles document format codec.

This file is a shallow embedding of the Rust sources in src/ of the
oodles repository (src/lib.rs for the document, message, dateline and
reference codecs, src/database.rs for the collection index), together
with theorems settling the frozen claims C1..C10 about that code.

Strings are modelled as `List Char` (`Chars`).  Rust functions that can
panic are modelled with an explicit outcome (`Option` with `none` for a
panic, or `RustResult` with a `fatal` constructor), because a panic
aborts the process and is observably different from returning an error.
Machine integers (`usize`) are modelled as `Nat`; the only arithmetic
the code performs on them is `+ 1` and comparisons, far from overflow.
The timestamp type `time::OffsetDateTime` is modelled concretely as the
record of fields the fixed format description of src/lib.rs prints
(year, month, day, hour, minute, second and a signed zone offset),
with the validity invariant that the `time` crate guarantees for every
constructed value.
-/

set_option maxHeartbeats 1000000

abbrev Chars := List Char

def str (s : String) : Chars := s.data

/-- Helper used below: `List.dropWhile` never lengthens a list. -/
theorem length_dropWhile_le {α : Type} (p : α → Bool) (l : List α) :
    (l.dropWhile p).length ≤ l.length := by
  induction l with
  | nil => simp [List.dropWhile]
  | cons a l ih =>
    by_cases h : p a
    · simp only [List.dropWhile, h]
      exact Nat.le_succ_of_le ih
    · simp only [List.dropWhile, h]
      simp

/-- Rust `str::lines` strips one `'\r'` from the end of a line that was
terminated by `"\r\n"`. -/
def stripCR (l : Chars) : Chars :=
  if l.getLast? = some '\r' then l.dropLast else l

/-- Worker for `rustLines`: `acc` holds the current line reversed. -/
def rustLinesAux : Chars → Chars → List Chars
  | acc, [] => [acc.reverse]
  | acc, c :: rest =>
    if c = '\n' then
      stripCR acc.reverse :: (if rest.isEmpty then [] else rustLinesAux [] rest)
    else rustLinesAux (c :: acc) rest

/-- Rust `str::lines`: split at `'\n'` terminators, strip one `'\r'`
before each `'\n'`, final terminator optional (a final line without a
terminator is yielded verbatim, including a trailing `'\r'`). -/
def rustLines (s : Chars) : List Chars :=
  if s.isEmpty then [] else rustLinesAux [] s

/-- Rust `str::trim_start` (ASCII whitespace; the inputs this
development evaluates it on contain only ASCII). -/
def trimLeft (s : Chars) : Chars := s.dropWhile Char.isWhitespace

/-- Rust `str::trim`. -/
def rustTrim (s : Chars) : Chars :=
  ((trimLeft s).reverse.dropWhile Char.isWhitespace).reverse

/-- Rust `str::find(char)`: index of the first occurrence. -/
def findChar (c : Char) : Chars → Option Nat
  | [] => none
  | x :: rest => if x = c then some 0 else (findChar c rest).map (· + 1)

/-- Rust `str::find(&str)`: first index at which `pat` occurs. -/
def findSub (pat : Chars) : Chars → Option Nat
  | [] => if pat.isPrefixOf ([] : Chars) then some 0 else none
  | s@(_ :: rest) =>
    if pat.isPrefixOf s then some 0 else (findSub pat rest).map (· + 1)

/-- Rust `str::rsplit_once(char)`: split at the last occurrence,
returning the part before and the part after it. -/
def rsplitOnce (sep : Char) : Chars → Option (Chars × Chars)
  | [] => none
  | c :: rest =>
    match rsplitOnce sep rest with
    | some (a, b) => some (c :: a, b)
    | none => if c = sep then some ([], rest) else none

/-- Rust `str::split_once(char)`: split at the first occurrence. -/
def splitOnce (sep : Char) : Chars → Option (Chars × Chars)
  | [] => none
  | c :: rest =>
    if c = sep then some ([], rest)
    else (splitOnce sep rest).map (fun p => (c :: p.1, p.2))

/-- Rust `str::strip_prefix`. -/
def stripPre (p s : Chars) : Option Chars :=
  if p.isPrefixOf s then some (s.drop p.length) else none

/-- Rust `str::strip_suffix`. -/
def stripSuf (q s : Chars) : Option Chars :=
  if q.reverse.isPrefixOf s.reverse then some (s.take (s.length - q.length))
  else none

/-- Digit-string to number, as Rust's integer parsing does once the
sign is stripped (overflow is ignored: `Nat` is unbounded, and no claim
exercises values near `usize::MAX`). -/
def strToNat (s : Chars) : Nat :=
  s.foldl (fun a c => a * 10 + (c.toNat - 48)) 0

/-- Rust `usize` parsing (`FromStr`, equivalently
`from_str_radix(_, 10)`): an optional leading `'+'`, then one or more
decimal digits; anything else is an error.  (Unsigned parsing rejects a
leading `'-'`.) -/
def parseDigits (t : Chars) : Option Nat :=
  if t.isEmpty then none
  else if t.all Char.isDigit then some (strToNat t) else none

def parseUsize (s : Chars) : Option Nat :=
  parseDigits (if s.head? = some '+' then s.drop 1 else s)

/-- Decimal digits of `n`, most significant first, via explicit fuel so
that the definition reduces in the kernel.  `natToStr` below always
supplies enough fuel. -/
def natDigits : Nat → Nat → Chars
  | 0, _ => []
  | fuel + 1, n =>
    if n < 10 then [Char.ofNat (48 + n)]
    else natDigits fuel (n / 10) ++ [Char.ofNat (48 + n % 10)]

/-- Rust `Display` for unsigned integers. -/
def natToStr (n : Nat) : Chars := natDigits (n + 1) n

/-- Zero-padding to width `k`, as the `padding:zero` time format items
do. -/
def padN (k n : Nat) : Chars :=
  List.replicate (k - (natToStr n).length) '0' ++ natToStr n

/-- Each element followed by a `'\n'`, concatenated: the shape in which
both codecs write line-oriented output. -/
def joinNL : List Chars → Chars
  | [] => []
  | l :: ls => l ++ '\n' :: joinNL ls

/-- Elements separated (not terminated) by `'\n'`. -/
def intercalateNL : List Chars → Chars
  | [] => []
  | [l] => l
  | l :: ls => l ++ '\n' :: intercalateNL ls

example : rustLines (str "a\r\nb\nc\n") = [str "a", str "b", str "c"] := by decide
example : rustLines (str "a\r") = [str "a\r"] := by decide
example : rustTrim (str "  a b \n") = (str "a b") := by decide
example : findSub (str "\n.\n") (str "ab\n.\nc") = some 2 := by decide
example : rsplitOnce ' ' (str "a b c") = some (str "a b", str "c") := by decide
example : splitOnce '/' (str "ab/c/d") = some (str "ab", str "c/d") := by decide
example : parseUsize (str "+042") = some 42 := by decide
example : parseUsize (str "x") = none := by decide
example : natToStr 1045 = (str "1045") := by decide
example : padN 4 7 = (str "0007") := by decide

/-!
The timestamp model.  `Message::TIME_FORMAT` in src/lib.rs is the fixed
format description
`YYYY-MM-DD HH:MM:SS±HHMM` (all fields zero padded, four digit year,
sign mandatory on the offset hour).  A `time::OffsetDateTime` is
modelled by the fields this format prints; the validity predicate below
is the invariant the `time` crate guarantees for every value it lets a
program construct (nonnegative four-digit years suffice: the crate's
default range is what the repository ever produces, and no claim
touches negative years).
-/

structure DateTime where
  year : Nat
  month : Nat
  day : Nat
  hour : Nat
  minute : Nat
  second : Nat
  offNeg : Bool
  offHour : Nat
  offMinute : Nat
deriving DecidableEq

def isLeap (y : Nat) : Bool :=
  (y % 4 = 0 && y % 100 ≠ 0) || y % 400 = 0

def daysInMonth (y m : Nat) : Nat :=
  if m = 2 then (if isLeap y then 29 else 28)
  else if m = 4 ∨ m = 6 ∨ m = 9 ∨ m = 11 then 30
  else 31

def DateTime.valid (dt : DateTime) : Bool :=
  decide (dt.year ≤ 9999 ∧ 1 ≤ dt.month ∧ dt.month ≤ 12 ∧ 1 ≤ dt.day ∧
    dt.day ≤ daysInMonth dt.year dt.month ∧ dt.hour ≤ 23 ∧
    dt.minute ≤ 59 ∧ dt.second ≤ 59 ∧ dt.offHour ≤ 23 ∧ dt.offMinute ≤ 59)

@[reducible] def DateTime.Valid (dt : DateTime) : Prop := dt.valid = true

/-- `OffsetDateTime::format` under `Message::TIME_FORMAT`
(`Message::formatted_date` in src/lib.rs; the format never fails on a
valid value). -/
def formatDate (dt : DateTime) : Chars :=
  padN 4 dt.year ++ '-' :: padN 2 dt.month ++ '-' :: padN 2 dt.day ++
    ' ' :: padN 2 dt.hour ++ ':' :: padN 2 dt.minute ++
    ':' :: padN 2 dt.second ++
    (if dt.offNeg then '-' else '+') :: padN 2 dt.offHour ++
    padN 2 dt.offMinute

/-- Read exactly `k` decimal digits. -/
def readN (k : Nat) (s : Chars) : Option (Nat × Chars) :=
  let d := s.take k
  if d.length = k && d.all Char.isDigit then some (strToNat d, s.drop k)
  else none

/-- Consume one expected character. -/
def expectC (c : Char) : Chars → Option Chars
  | [] => none
  | x :: rest => if x = c then some rest else none

/-- `OffsetDateTime::parse` under `Message::TIME_FORMAT`: the fixed
pattern, then the component-range validation the `time` crate performs
when assembling the value. -/
def parseDate (s : Chars) : Option DateTime := do
  let (y, s) ← readN 4 s
  let s ← expectC '-' s
  let (mo, s) ← readN 2 s
  let s ← expectC '-' s
  let (d, s) ← readN 2 s
  let s ← expectC ' ' s
  let (h, s) ← readN 2 s
  let s ← expectC ':' s
  let (mi, s) ← readN 2 s
  let s ← expectC ':' s
  let (se, s) ← readN 2 s
  match s with
  | [] => none
  | sg :: s =>
    if sg = '+' ∨ sg = '-' then do
      let (oh, s) ← readN 2 s
      let (om, s) ← readN 2 s
      if s.isEmpty then
        let dt : DateTime := ⟨y, mo, d, h, mi, se, sg = '-', oh, om⟩
        if dt.valid then some dt else none
      else none
    else none

/-- Outcome of a Rust call: a value, a recoverable `Err`, or a panic
(`fatal`), which aborts the process. -/
inductive RustResult (α : Type) where
  | ok (val : α)
  | err
  | fatal
deriving DecidableEq

/-- `Reference` in src/lib.rs. -/
inductive Reference where
  | message (oodle_id : Chars) (message_id : Nat)
  | oodle (oodle_id : Chars)
  | internal (message_id : Nat)
deriving DecidableEq

/-- `impl FromStr for Reference` (src/lib.rs).  The byte slicings
`&internal_with_hanging[..len - 1]` and `&s[1..s.len() - 1]` panic when
the string is shorter than the indices assume (index underflow or
out-of-range slice); those cases are `fatal`. -/
def Reference.from_str (s : Chars) : RustResult Reference :=
  match stripPre (str "\x7b~") s with
  | some internal_with_hanging =>
    if internal_with_hanging.length = 0 then .fatal
    else
      match parseUsize internal_with_hanging.dropLast with
      | some n => .ok (.internal n)
      | none => .err
  | none =>
    if s.length < 2 then .fatal
    else
      let full := (s.drop 1).dropLast
      match splitOnce '/' full with
      | none => .ok (.oodle full)
      | some (oid, mid) =>
        match parseUsize mid with
        | some n => .ok (.message oid n)
        | none => .err

/-- The loop of `Message::find_references` (src/lib.rs), with explicit
fuel so the definition reduces in the kernel; the wrapper below always
supplies enough.  `none` models a panic: the code takes
`s.find('{')` as `start_idx` but `s.find('}')` (searched from the start
of `s`, not from `start_idx`) as `end_idx`, so when a `'}'` precedes
the first `'{'` the slice `&s[start_idx..end_idx + 1]` either panics
outright (`end_idx + 1 < start_idx`) or is empty, and
`Reference::from_str("")` then panics. -/
def findRefsFuel : Nat → Chars → Option (List Reference)
  | 0, _ => none
  | fuel + 1, s =>
    match findChar '{' s with
    | none => some []
    | some start =>
      match findChar '}' s with
      | none => some []
      | some e =>
        if e + 1 < start then none
        else
          let raw := (s.drop start).take (e + 1 - start)
          match Reference.from_str raw with
          | .fatal => none
          | .ok r => (findRefsFuel fuel (s.drop (e + 1))).map (fun rs => r :: rs)
          | .err => findRefsFuel fuel (s.drop (e + 1))

/-- `Message::find_references`.  `none` models a panic. -/
def Message.find_references (s : Chars) : Option (List Reference) :=
  findRefsFuel (s.length + 1) s

/-- `Backlink` in src/lib.rs. -/
structure Backlink where
  oodle_id : Chars
  message_id : Nat
deriving DecidableEq

/-- `Message` in src/lib.rs. -/
structure Message where
  id : Nat
  date : DateTime
  content : Chars
  references : List Reference
  backlinks : List Backlink
deriving DecidableEq

/-- `Message::new` (src/lib.rs): stores the content and derives the
references from it; `none` when `find_references` panics. -/
def Message.new (id : Nat) (date : DateTime) (msg : Chars) : Option Message :=
  (Message.find_references msg).map (fun refs => ⟨id, date, msg, refs, []⟩)

/-- The body escaping of `Message::fmt_write_body`: a line that is
exactly `.` is written as `..`, all others verbatim. -/
def escLine (l : Chars) : Chars := if l = str "." then str ".." else l

/-- The body unescaping in `impl FromStr for Message`: a line that is
exactly `..` is read back as `.`, all others verbatim. -/
def unescLine (l : Chars) : Chars := if l = str ".." then str "." else l

/-- `Message::fmt_write_body` (src/lib.rs): each content line, escaped,
newline-terminated. -/
def Message.fmt_write_body (content : Chars) : Chars :=
  joinNL ((rustLines content).map escLine)

/-- `Message::fmt_write_dateline` (src/lib.rs). -/
def Message.fmt_write_dateline (m : Message) (printIndex : Bool) : Chars :=
  formatDate m.date ++
    (if printIndex then ' ' :: '(' :: natToStr m.id ++ [')'] else []) ++ ['\n']

/-- Dateline plus body; `impl fmt::Display for Message` is
`fmt_full m false`, `Message::fmt_with_idx` is `fmt_full m true`. -/
def Message.fmt_full (m : Message) (printIndex : Bool) : Chars :=
  m.fmt_write_dateline printIndex ++ Message.fmt_write_body m.content

def Message.fmt (m : Message) : Chars := m.fmt_full false

def Message.fmt_with_idx (m : Message) : Chars := m.fmt_full true

/-- `Message::parse_dateline` (src/lib.rs).  `none` models a panic: the
code panics (`unwrap`, `panic!`) on a missing space, a non-numeric
bracketed suffix, or an unparsable timestamp, and never returns `Err`.
The slice `&idx[1..idx.len() - 1]` panics when the suffix is shorter
than two bytes. -/
def Message.parse_dateline (line : Chars) : Option (Option Nat × DateTime) :=
  if line.getLast? = some ')' then
    match rsplitOnce ' ' line with
    | some (date, idx) =>
      if idx.length < 2 then none
      else
        match parseUsize ((idx.drop 1).dropLast) with
        | none => none
        | some n => (parseDate date).map (fun dt => (some n, dt))
    | none => none
  else (parseDate line).map (fun dt => (none, dt))

/-- The body-reassembly loop of `impl FromStr for Message`: each
remaining line, unescaped, newline-terminated. -/
def parseBody (ls : List Chars) : Chars := joinNL (ls.map unescLine)

/-- `impl FromStr for Message` (src/lib.rs): first line is the
dateline, the rest is the body; the content is trimmed and handed to
`Message::new`.  `err` when the input has no lines at all; `fatal` when
`parse_dateline` or `find_references` panics. -/
def Message.from_str (s : Chars) : RustResult Message :=
  match rustLines s with
  | [] => .err
  | dateline :: rest =>
    match Message.parse_dateline dateline with
    | none => .fatal
    | some (idx, date) =>
      match Message.new (idx.getD 0) date (rustTrim (parseBody rest)) with
      | none => .fatal
      | some m => .ok m

/-- `Oodle` in src/lib.rs. -/
structure Oodle where
  id : Chars
  name : Chars
  file : Chars
  messages : List Message
  backlinks : List Backlink
deriving DecidableEq

/-- `Oodle::new` (src/lib.rs). -/
def Oodle.new (id name file : Chars) (first_message : Message) : Oodle :=
  ⟨id, name, file, [first_message], []⟩

/-- `Oodle::new_noid` (src/lib.rs); the random 6-character identifier
`mavourings::users::random_base58(6)` is passed in as `fresh`. -/
def Oodle.new_noid (fresh name file : Chars) (first_message : Message) : Oodle :=
  ⟨fresh, name, file, [first_message], []⟩

/-- The `expected` index of `Oodle::push_message`:
`self.messages.last().map(|m| m.id + 1).unwrap_or(0)`. -/
def Oodle.next_idx (o : Oodle) : Nat :=
  match o.messages.getLast? with
  | some m => m.id + 1
  | none => 0

/-- `Oodle::push_message` (src/lib.rs): returns the updated document
and the id actually assigned to the appended message. -/
def Oodle.push_message (o : Oodle) (msg : Message) : Oodle × Nat :=
  let idx := o.next_idx
  let newId := if msg.id > 0 then (if msg.id < idx then idx else msg.id) else idx
  ({ o with messages := o.messages ++ [{ msg with id := newId }] }, newId)

/-- The message loop of `impl fmt::Display for Oodle` (src/lib.rs):
one blank line, the message (index printed iff the running counter
disagrees with its id, resetting the counter), the terminator line,
counter incremented. -/
def Oodle.fmtMsgs : Nat → List Message → Chars
  | _, [] => []
  | idx, m :: rest =>
    if idx ≠ m.id then
      '\n' :: (m.fmt_full true ++ str ".\n") ++ Oodle.fmtMsgs (m.id + 1) rest
    else
      '\n' :: (m.fmt_full false ++ str ".\n") ++ Oodle.fmtMsgs (idx + 1) rest

/-- `impl fmt::Display for Oodle` (src/lib.rs). -/
def Oodle.fmt (o : Oodle) : Chars :=
  str "-= " ++ o.name ++ str " =-\n" ++ '[' :: o.id ++ str "]\n" ++
    Oodle.fmtMsgs 0 o.messages

/-- `Oodle::extract_title` (src/lib.rs). -/
def Oodle.extract_title (s : Chars) : Option Chars :=
  (stripPre (str "-=") s).bind fun t =>
    (stripSuf (str "=-") t).map rustTrim

/-- `Oodle::extract_id` (src/lib.rs). -/
def Oodle.extract_id (s : Chars) : Option Chars :=
  (stripPre (str "[") s).bind fun t => stripSuf (str "]") t

/-- The message loop of `impl FromStr for Oodle` (src/lib.rs):
repeatedly split at `"\n.\n"`, trim and parse each piece, and append it
with `push_message`; a final non-blank remainder is one last
terminator-less message.  Explicit fuel (the wrapper supplies
`length + 1`, always enough since every iteration consumes at least
three characters). -/
def parseLoopFuel : Nat → Oodle → Chars → RustResult Oodle
  | 0, _, _ => .err
  | fuel + 1, o, s =>
    match findSub (str "\n.\n") s with
    | some j =>
      match Message.from_str (rustTrim (s.take j)) with
      | .ok m => parseLoopFuel fuel (o.push_message m).1 (s.drop (j + 3))
      | .err => .err
      | .fatal => .fatal
    | none =>
      if rustTrim s = [] then .ok o
      else
        match Message.from_str (rustTrim s) with
        | .ok m => .ok (o.push_message m).1
        | .err => .err
        | .fatal => .fatal

/-- Tail of `impl FromStr for Oodle` after the header: skip one leading
blank line, then run the message loop on a fresh document with the
placeholder file path `/tmp`. -/
def Oodle.from_str_rest (title idv s0 : Chars) : RustResult Oodle :=
  let s := if s0.head? = some '\n' then s0.drop 1 else s0
  parseLoopFuel (s.length + 1) ⟨idv, title, str "/tmp", [], []⟩ s

/-- `impl FromStr for Oodle` (src/lib.rs).  `fresh` stands for the
random identifier `mavourings::users::random_base58(6)` used when no
identifier line is found.  `fatal` models the `todo!()` panics: no
newline at all, a malformed title line, or (when a second line exists)
a second line that is not bracket-delimited. -/
def Oodle.from_str (fresh input : Chars) : RustResult Oodle :=
  match findChar '\n' input with
  | none => .fatal
  | some i =>
    match Oodle.extract_title (input.take i) with
    | none => .fatal
    | some title =>
      let s1 := input.drop (i + 1)
      match findChar '\n' s1 with
      | some j =>
        match Oodle.extract_id (s1.take j) with
        | none => .fatal
        | some idv => Oodle.from_str_rest title idv (s1.drop (j + 1))
      | none => Oodle.from_str_rest title fresh s1

/-- Modelled from the spec: the Backlink Resolver of §4.5 is declared
by the spec but absent from src/ (src/lib.rs declares `Backlink` and
src/database.rs the collection `Oodles`, yet nothing in src/ adds
backlinks).  Per the spec: for each reference, a `ToDocument{did}` adds
`{source_document_id, source_message_id}` to the backlinks of the
document with identifier `did` in the collection index (a no-op, not an
error, when no loaded document has that identifier); a
`ToMessage{did, mid}` adds the same record to message `mid` of document
`did`; a `ToSelf{mid}` resolves against the source document itself. -/
def resolveReferences (store : List Oodle) (srcDoc : Chars) (srcMsg : Nat)
    (refs : List Reference) : List Oodle :=
  refs.foldl (fun st r =>
    match r with
    | .oodle did =>
      st.map (fun o =>
        if o.id = did then
          { o with backlinks := o.backlinks ++ [⟨srcDoc, srcMsg⟩] }
        else o)
    | .message did mid =>
      st.map (fun o =>
        if o.id = did then
          { o with messages := o.messages.map (fun m =>
              if m.id = mid then
                { m with backlinks := m.backlinks ++ [⟨srcDoc, srcMsg⟩] }
              else m) }
        else o)
    | .internal mid =>
      st.map (fun o =>
        if o.id = srcDoc then
          { o with messages := o.messages.map (fun m =>
              if m.id = mid then
                { m with backlinks := m.backlinks ++ [⟨srcDoc, srcMsg⟩] }
              else m) }
        else o)) store

/-- A concrete valid timestamp (2022-06-01 13:45:00-0500, the one the
repository uses in its own tests) for witnesses and counterexamples. -/
def dtEx : DateTime := ⟨2022, 6, 1, 13, 45, 0, true, 5, 0⟩

/-! Basic lemmas about the string primitives. -/

theorem getLast?_mem : ∀ {l : Chars} {a : Char}, l.getLast? = some a → a ∈ l := by
  intro l
  induction l with
  | nil => intro a h; simp [List.getLast?] at h
  | cons x xs ih =>
    intro a h
    cases xs with
    | nil =>
      simp [List.getLast?] at h
      simp [h]
    | cons y ys =>
      rw [List.getLast?_cons_cons] at h
      exact List.mem_cons_of_mem _ (ih h)

theorem mem_stripCR {c : Char} {l : Chars} (h : c ∈ stripCR l) : c ∈ l := by
  unfold stripCR at h
  split at h
  · exact List.dropLast_subset l h
  · exact h

theorem stripCR_of_not_mem {l : Chars} (h : '\r' ∉ l) : stripCR l = l := by
  unfold stripCR
  cases hl : l.getLast? with
  | none => simp
  | some c =>
    have hc : c ∈ l := getLast?_mem hl
    have hne : ¬ c = '\r' := fun hh => h (hh ▸ hc)
    simp [hne]

theorem rustLinesAux_cons_nl (acc rest : Chars) :
    rustLinesAux acc ('\n' :: rest) =
      stripCR acc.reverse :: (if rest.isEmpty then [] else rustLinesAux [] rest) := by
  simp [rustLinesAux]

theorem rustLinesAux_cons_ne (acc : Chars) {c : Char} (rest : Chars)
    (h : ¬ c = '\n') :
    rustLinesAux acc (c :: rest) = rustLinesAux (c :: acc) rest := by
  simp [rustLinesAux, h]

theorem rustLinesAux_no_nl :
    ∀ (a acc : Chars), '\n' ∉ a → rustLinesAux acc a = [acc.reverse ++ a] := by
  intro a
  induction a with
  | nil => intro acc _; simp [rustLinesAux]
  | cons c rest ih =>
    intro acc h
    have hc : ¬ c = '\n' := fun hh => h (hh ▸ List.mem_cons_self c rest)
    have hr : '\n' ∉ rest := fun hh => h (List.mem_cons_of_mem _ hh)
    rw [rustLinesAux_cons_ne acc rest hc, ih (c :: acc) hr]
    simp

theorem rustLinesAux_append :
    ∀ (a acc r : Chars), '\n' ∉ a →
      rustLinesAux acc (a ++ '\n' :: r) =
        stripCR (acc.reverse ++ a) ::
          (if r.isEmpty then [] else rustLinesAux [] r) := by
  intro a
  induction a with
  | nil =>
    intro acc r _
    rw [List.nil_append, rustLinesAux_cons_nl]
    simp
  | cons c rest ih =>
    intro acc r h
    have hc : ¬ c = '\n' := fun hh => h (hh ▸ List.mem_cons_self c rest)
    have hr : '\n' ∉ rest := fun hh => h (List.mem_cons_of_mem _ hh)
    rw [List.cons_append, rustLinesAux_cons_ne acc _ hc, ih (c :: acc) r hr]
    simp

theorem rustLines_nil : rustLines [] = [] := rfl

theorem rustLines_append {a : Chars} (r : Chars) (h : '\n' ∉ a) :
    rustLines (a ++ '\n' :: r) = stripCR a :: rustLines r := by
  have hne : (a ++ '\n' :: r).isEmpty = false := by
    cases a <;> simp [List.isEmpty]
  unfold rustLines
  rw [hne]
  simp only [Bool.false_eq_true, if_false]
  rw [rustLinesAux_append a [] r h]
  simp

theorem rustLines_no_nl {a : Chars} (h : '\n' ∉ a) (hne : a ≠ []) :
    rustLines a = [a] := by
  have hie : a.isEmpty = false := by
    cases a with | nil => exact absurd rfl hne | cons x xs => simp [List.isEmpty]
  unfold rustLines
  rw [hie]
  simp only [Bool.false_eq_true, if_false]
  rw [rustLinesAux_no_nl a [] h]
  simp

theorem rustLinesAux_subset :
    ∀ (s acc l : Chars), l ∈ rustLinesAux acc s → ∀ c ∈ l, c ∈ acc ∨ c ∈ s := by
  intro s
  induction s with
  | nil =>
    intro acc l hl c hc
    simp [rustLinesAux] at hl
    subst hl
    exact Or.inl (List.mem_reverse.mp hc)
  | cons x rest ih =>
    intro acc l hl c hc
    by_cases hx : x = '\n'
    · subst hx
      rw [rustLinesAux_cons_nl] at hl
      rcases List.mem_cons.mp hl with h1 | h1
      · subst h1
        exact Or.inl (List.mem_reverse.mp (mem_stripCR hc))
      · by_cases hr : rest.isEmpty
        · rw [if_pos hr] at h1; simp at h1
        · rw [if_neg hr] at h1
          rcases ih [] l h1 c hc with h2 | h2
          · simp at h2
          · exact Or.inr (List.mem_cons_of_mem _ h2)
    · rw [rustLinesAux_cons_ne acc rest hx] at hl
      rcases ih (x :: acc) l hl c hc with h2 | h2
      · rcases List.mem_cons.mp h2 with h3 | h3
        · exact Or.inr (h3 ▸ List.mem_cons_self x rest)
        · exact Or.inl h3
      · exact Or.inr (List.mem_cons_of_mem _ h2)

theorem rustLines_subset {s l : Chars} (hl : l ∈ rustLines s) :
    ∀ c ∈ l, c ∈ s := by
  intro c hc
  unfold rustLines at hl
  by_cases hs : s.isEmpty
  · rw [if_pos hs] at hl; simp at hl
  · rw [if_neg hs] at hl
    rcases rustLinesAux_subset s [] l hl c hc with h | h
    · simp at h
    · exact h

theorem rustLinesAux_no_nl_mem :
    ∀ (s acc l : Chars), '\n' ∉ acc → l ∈ rustLinesAux acc s → '\n' ∉ l := by
  intro s
  induction s with
  | nil =>
    intro acc l hacc hl
    simp [rustLinesAux] at hl
    subst hl
    intro hmem
    exact hacc (List.mem_reverse.mp hmem)
  | cons x rest ih =>
    intro acc l hacc hl
    by_cases hx : x = '\n'
    · subst hx
      rw [rustLinesAux_cons_nl] at hl
      rcases List.mem_cons.mp hl with h1 | h1
      · subst h1
        intro hmem
        exact hacc (List.mem_reverse.mp (mem_stripCR hmem))
      · by_cases hr : rest.isEmpty
        · rw [if_pos hr] at h1; simp at h1
        · rw [if_neg hr] at h1
          exact ih [] l (by simp) h1
    · rw [rustLinesAux_cons_ne acc rest hx] at hl
      refine ih (x :: acc) l ?_ hl
      intro hmem
      rcases List.mem_cons.mp hmem with h3 | h3
      · exact hx h3.symm
      · exact hacc h3

theorem rustLines_not_nl {s l : Chars} (hl : l ∈ rustLines s) : '\n' ∉ l := by
  unfold rustLines at hl
  by_cases hs : s.isEmpty
  · rw [if_pos hs] at hl; simp at hl
  · rw [if_neg hs] at hl
    exact rustLinesAux_no_nl_mem s [] l (by simp) hl

/-! Lemmas about trimming. -/

theorem rustTrim_nil : rustTrim [] = [] := rfl

theorem trimLeft_ws_pre :
    ∀ (p s : Chars), (∀ c ∈ p, c.isWhitespace = true) →
      trimLeft (p ++ s) = trimLeft s := by
  intro p
  induction p with
  | nil => intro s _; rfl
  | cons c p' ih =>
    intro s h
    have hc : c.isWhitespace = true := h c (List.mem_cons_self c p')
    have hp : ∀ x ∈ p', x.isWhitespace = true :=
      fun x hx => h x (List.mem_cons_of_mem _ hx)
    simp only [List.cons_append, trimLeft, List.dropWhile_cons, hc, if_true]
    exact ih s hp

theorem rustTrim_ws_pre {p : Chars} (s : Chars)
    (h : ∀ c ∈ p, c.isWhitespace = true) :
    rustTrim (p ++ s) = rustTrim s := by
  unfold rustTrim
  rw [trimLeft_ws_pre p s h]

theorem dropWhile_eq_nil_of_all {p : Char → Bool} :
    ∀ {l : Chars}, (∀ c ∈ l, p c = true) → l.dropWhile p = [] := by
  intro l
  induction l with
  | nil => intro _; rfl
  | cons c t ih =>
    intro h
    simp only [List.dropWhile_cons, h c (List.mem_cons_self c t), if_true]
    exact ih (fun x hx => h x (List.mem_cons_of_mem _ hx))

theorem dropWhile_append_of_ne_nil {p : Char → Bool} {a : Chars} (b : Chars)
    (h : a.dropWhile p ≠ []) :
    (a ++ b).dropWhile p = a.dropWhile p ++ b := by
  induction a with
  | nil => exact absurd rfl h
  | cons c t ih =>
    by_cases hc : p c
    · simp only [List.dropWhile_cons, hc, if_true] at h ⊢
      simp only [List.cons_append, List.dropWhile_cons, hc, if_true]
      exact ih h
    · simp [List.dropWhile_cons, hc]

theorem dropWhile_append_nil_left {p : Char → Bool} :
    ∀ {a : Chars} (b : Chars), a.dropWhile p = [] →
      (a ++ b).dropWhile p = b.dropWhile p := by
  intro a
  induction a with
  | nil => intro b _; rfl
  | cons c t ih =>
    intro b hs
    by_cases hc : p c
    · rw [List.dropWhile_cons, if_pos hc] at hs
      rw [List.cons_append, List.dropWhile_cons, if_pos hc]
      exact ih b hs
    · rw [List.dropWhile_cons, if_neg hc] at hs
      simp at hs

theorem rustTrim_ws_suffix {suf : Chars} (s : Chars)
    (h : ∀ c ∈ suf, c.isWhitespace = true) :
    rustTrim (s ++ suf) = rustTrim s := by
  unfold rustTrim
  by_cases hs : trimLeft s = []
  · have h1 : trimLeft (s ++ suf) = trimLeft suf := by
      unfold trimLeft at hs ⊢
      exact dropWhile_append_nil_left suf hs
    have h2 : trimLeft suf = [] := dropWhile_eq_nil_of_all h
    rw [h1, h2, hs]
  · have h1 : trimLeft (s ++ suf) = trimLeft s ++ suf := by
      unfold trimLeft at hs ⊢
      exact dropWhile_append_of_ne_nil suf hs
    rw [h1, List.reverse_append]
    have h3 := trimLeft_ws_pre suf.reverse (trimLeft s).reverse
      (fun c hc => h c (List.mem_reverse.mp hc))
    unfold trimLeft at h3 ⊢
    rw [h3]

theorem dropWhile_head_not {p : Char → Bool} :
    ∀ {l : Chars} {c : Char}, (l.dropWhile p).head? = some c → p c = false := by
  intro l
  induction l with
  | nil => intro c h; simp [List.dropWhile] at h
  | cons a t ih =>
    intro c h
    by_cases ha : p a
    · rw [List.dropWhile_cons, if_pos ha] at h
      exact ih h
    · rw [List.dropWhile_cons, if_neg ha] at h
      simp at h
      subst h
      exact Bool.eq_false_iff.mpr ha

theorem exists_dropWhile_suffix {p : Char → Bool} :
    ∀ (l : Chars), ∃ v, l = v ++ l.dropWhile p := by
  intro l
  induction l with
  | nil => exact ⟨[], rfl⟩
  | cons a t ih =>
    by_cases ha : p a
    · rcases ih with ⟨v, hv⟩
      exact ⟨a :: v, by rw [List.dropWhile_cons, if_pos ha]; simpa using hv⟩
    · exact ⟨[], by rw [List.dropWhile_cons, if_neg ha]; rfl⟩

theorem rustTrim_last_not_ws {s : Chars} {c : Char}
    (h : (rustTrim s).getLast? = some c) : c.isWhitespace = false := by
  unfold rustTrim at h
  rw [List.getLast?_reverse] at h
  exact dropWhile_head_not h

theorem rustTrim_head_not_ws {s : Chars} {c : Char}
    (h : (rustTrim s).head? = some c) : c.isWhitespace = false := by
  have hh : (trimLeft s).head? = some c := by
    unfold rustTrim at h
    rcases @exists_dropWhile_suffix Char.isWhitespace (trimLeft s).reverse
      with ⟨v, hv⟩
    set u := (trimLeft s).reverse.dropWhile Char.isWhitespace with hu
    have : trimLeft s = u.reverse ++ v.reverse := by
      have := congrArg List.reverse hv
      simpa [List.reverse_append] using this
    rw [this]
    cases hcu : u.reverse with
    | nil => rw [hcu] at h; simp at h
    | cons x xs =>
      rw [hcu] at h
      simp at h
      simp [hcu, h]
  exact dropWhile_head_not (by
    have : trimLeft s = s.dropWhile Char.isWhitespace := rfl
    rw [this] at hh
    exact hh)

theorem rustTrim_eq_self {s : Chars}
    (h1 : ∀ c, s.head? = some c → c.isWhitespace = false)
    (h2 : ∀ c, s.getLast? = some c → c.isWhitespace = false) :
    rustTrim s = s := by
  have hl : trimLeft s = s := by
    cases s with
    | nil => rfl
    | cons c t =>
      unfold trimLeft
      rw [List.dropWhile_cons, if_neg]
      intro hc
      exact absurd (h1 c rfl) (by simp [hc])
  unfold rustTrim
  rw [hl]
  cases hs : s.reverse with
  | nil =>
    have : s = [] := by simpa using congrArg List.reverse hs
    simp [this]
  | cons c t =>
    have hc : s.getLast? = some c := by
      rw [← List.head?_reverse, hs]; rfl
    rw [List.dropWhile_cons, if_neg (by simp [h2 c hc])]
    rw [← hs, List.reverse_reverse]

/-! Lemmas about searching and splitting. -/

theorem findChar_append {c : Char} :
    ∀ (a r : Chars), c ∉ a → findChar c (a ++ c :: r) = some a.length := by
  intro a
  induction a with
  | nil => intro r _; simp [findChar]
  | cons x a' ih =>
    intro r h
    have hx : ¬ x = c := fun hh => h (hh ▸ List.mem_cons_self x a')
    have ha : c ∉ a' := fun hh => h (List.mem_cons_of_mem _ hh)
    have h1 : findChar c ((x :: a') ++ c :: r) =
        (findChar c (a' ++ c :: r)).map (· + 1) := by
      simp [findChar, hx]
    rw [h1, ih r ha]
    simp

theorem isPrefixOf_self_append :
    ∀ (p r : Chars), p.isPrefixOf (p ++ r) = true := by
  intro p
  induction p with
  | nil => intro r; simp [List.isPrefixOf]
  | cons c p' ih => intro r; simp [List.isPrefixOf, ih r]

theorem stripPre_self (p r : Chars) : stripPre p (p ++ r) = some r := by
  unfold stripPre
  rw [isPrefixOf_self_append p r]
  simp

theorem stripSuf_self (q x : Chars) : stripSuf q (x ++ q) = some x := by
  unfold stripSuf
  rw [List.reverse_append, isPrefixOf_self_append]
  have hl : (x ++ q).length - q.length = x.length := by
    simp
  rw [if_pos rfl, hl]
  simp

theorem rsplitOnce_of_not_mem {sep : Char} :
    ∀ {s : Chars}, sep ∉ s → rsplitOnce sep s = none := by
  intro s
  induction s with
  | nil => intro _; rfl
  | cons c rest ih =>
    intro h
    have hc : ¬ c = sep := fun hh => h (hh ▸ List.mem_cons_self c rest)
    have hr : sep ∉ rest := fun hh => h (List.mem_cons_of_mem _ hh)
    simp [rsplitOnce, ih hr, hc]

theorem rsplitOnce_append {sep : Char} :
    ∀ (a : Chars) {b : Chars}, sep ∉ b →
      rsplitOnce sep (a ++ sep :: b) = some (a, b) := by
  intro a
  induction a with
  | nil =>
    intro b hb
    simp [rsplitOnce, rsplitOnce_of_not_mem hb]
  | cons c a' ih =>
    intro b hb
    simp [rsplitOnce, ih hb]

/-! Lemmas about decimal digits. -/

theorem digitChar_isDigit {d : Nat} (h : d < 10) :
    (Char.ofNat (48 + d)).isDigit = true := by
  interval_cases d <;> decide

theorem digitChar_toNat {d : Nat} (h : d < 10) :
    (Char.ofNat (48 + d)).toNat = 48 + d := by
  interval_cases d <;> decide

theorem isDigit_ne {c d : Char} (hc : c.isDigit = true) (hd : d.isDigit = false) :
    c ≠ d := by
  intro h
  rw [h, hd] at hc
  exact absurd hc (by simp)

theorem natDigits_ne_nil (fuel n : Nat) : natDigits (fuel + 1) n ≠ [] := by
  unfold natDigits
  by_cases h : n < 10
  · simp [h]
  · simp [h]

theorem natDigits_all_digit :
    ∀ (fuel n : Nat), ∀ c ∈ natDigits fuel n, c.isDigit = true := by
  intro fuel
  induction fuel with
  | zero => intro n c hc; simp [natDigits] at hc
  | succ f ih =>
    intro n c hc
    unfold natDigits at hc
    by_cases h : n < 10
    · rw [if_pos h] at hc
      simp at hc
      subst hc
      exact digitChar_isDigit h
    · rw [if_neg h] at hc
      rcases List.mem_append.mp hc with h1 | h1
      · exact ih (n / 10) c h1
      · simp at h1
        subst h1
        exact digitChar_isDigit (Nat.mod_lt n (by norm_num))

theorem strToNat_append_digit (a : Chars) (c : Char) :
    strToNat (a ++ [c]) = strToNat a * 10 + (c.toNat - 48) := by
  unfold strToNat
  rw [List.foldl_append]
  rfl

theorem natDigits_strToNat :
    ∀ (fuel n : Nat), n < 10 ^ fuel → strToNat (natDigits fuel n) = n := by
  intro fuel
  induction fuel with
  | zero =>
    intro n h
    have : n = 0 := by simpa using h
    subst this
    rfl
  | succ f ih =>
    intro n h
    unfold natDigits
    by_cases hn : n < 10
    · rw [if_pos hn]
      show strToNat [Char.ofNat (48 + n)] = n
      unfold strToNat
      simp [List.foldl, digitChar_toNat hn]
    · rw [if_neg hn]
      rw [strToNat_append_digit]
      have hdiv : n / 10 < 10 ^ f := by
        rw [Nat.div_lt_iff_lt_mul (by norm_num : 0 < 10)]
        calc n < 10 ^ (f + 1) := h
          _ = 10 ^ f * 10 := by rw [pow_succ]
      rw [ih (n / 10) hdiv, digitChar_toNat (Nat.mod_lt n (by norm_num))]
      omega

theorem natDigits_length_le :
    ∀ (fuel n k : Nat), n < 10 ^ k → 1 ≤ k →
      (natDigits fuel n).length ≤ k := by
  intro fuel
  induction fuel with
  | zero => intro n k _ _; simp [natDigits]
  | succ f ih =>
    intro n k h hk
    unfold natDigits
    by_cases hn : n < 10
    · rw [if_pos hn]
      simpa using hk
    · rw [if_neg hn]
      have hk2 : 2 ≤ k := by
        by_contra hlt
        have : k = 1 := by omega
        subst this
        simp at h
        omega
      have hdiv : n / 10 < 10 ^ (k - 1) := by
        rw [Nat.div_lt_iff_lt_mul (by norm_num : 0 < 10)]
        calc n < 10 ^ k := h
          _ = 10 ^ (k - 1) * 10 := by
            rw [← pow_succ]
            congr 1
            omega
      have := ih (n / 10) (k - 1) hdiv (by omega)
      simp only [List.length_append, List.length_cons, List.length_nil]
      omega

theorem n_lt_ten_pow (n : Nat) : n < 10 ^ (n + 1) := by
  calc n < 2 ^ n := Nat.lt_two_pow n
    _ ≤ 10 ^ n := Nat.pow_le_pow_left (by norm_num) n
    _ ≤ 10 ^ (n + 1) := Nat.pow_le_pow_right (by norm_num) (Nat.le_succ n)

theorem natToStr_strToNat (n : Nat) : strToNat (natToStr n) = n :=
  natDigits_strToNat (n + 1) n (n_lt_ten_pow n)

theorem natToStr_ne_nil (n : Nat) : natToStr n ≠ [] :=
  natDigits_ne_nil n n

theorem natToStr_all_digit (n : Nat) : ∀ c ∈ natToStr n, c.isDigit = true :=
  natDigits_all_digit (n + 1) n

theorem natToStr_length_le {n k : Nat} (h : n < 10 ^ k) (hk : 1 ≤ k) :
    (natToStr n).length ≤ k :=
  natDigits_length_le (n + 1) n k h hk

theorem padN_all_digit (k n : Nat) : ∀ c ∈ padN k n, c.isDigit = true := by
  intro c hc
  rcases List.mem_append.mp hc with h1 | h1
  · have : c = '0' := List.eq_of_mem_replicate h1
    subst this
    decide
  · exact natToStr_all_digit n c h1

theorem padN_ne_nil (k n : Nat) : padN k n ≠ [] := by
  unfold padN
  simp [natToStr_ne_nil n]

theorem padN_length {k n : Nat} (h : n < 10 ^ k) (hk : 1 ≤ k) :
    (padN k n).length = k := by
  unfold padN
  have := natToStr_length_le h hk
  simp only [List.length_append, List.length_replicate]
  omega

theorem strToNat_zero_pad :
    ∀ (m : Nat) (d : Chars), strToNat (List.replicate m '0' ++ d) = strToNat d := by
  intro m
  induction m with
  | zero => intro d; rfl
  | succ m' ih =>
    intro d
    show strToNat ('0' :: (List.replicate m' '0' ++ d)) = strToNat d
    unfold strToNat at ih ⊢
    simp only [List.foldl_cons]
    have : (0 * 10 + ('0'.toNat - 48)) = 0 := by decide
    rw [this]
    exact ih d

theorem strToNat_padN {k n : Nat} : strToNat (padN k n) = n := by
  unfold padN
  rw [strToNat_zero_pad, natToStr_strToNat]

theorem all_eq_true_of_forall {p : Char → Bool} {l : Chars}
    (h : ∀ c ∈ l, p c = true) : l.all p = true := by
  rw [List.all_eq_true]
  exact h

theorem readN_padN {k n : Nat} (rest : Chars) (h : n < 10 ^ k) (hk : 1 ≤ k) :
    readN k (padN k n ++ rest) = some (n, rest) := by
  have hlen : (padN k n).length = k := padN_length h hk
  have htake : (padN k n ++ rest).take k = padN k n := by
    have := List.take_left (padN k n) rest
    rwa [hlen] at this
  have hdrop : (padN k n ++ rest).drop k = rest := by
    have := List.drop_left (padN k n) rest
    rwa [hlen] at this
  unfold readN
  simp only [htake, hdrop, hlen]
  rw [all_eq_true_of_forall (padN_all_digit k n)]
  simp [strToNat_padN]

theorem expectC_cons (c : Char) (rest : Chars) : expectC c (c :: rest) = some rest := by
  simp [expectC]

theorem parseDigits_of_all {t : Chars} (hne : t ≠ [])
    (hall : ∀ c ∈ t, c.isDigit = true) :
    parseDigits t = some (strToNat t) := by
  unfold parseDigits
  have hie : t.isEmpty = false := by
    cases t with
    | nil => exact absurd rfl hne
    | cons x xs => simp [List.isEmpty]
  rw [hie]
  simp only [Bool.false_eq_true, if_false]
  rw [all_eq_true_of_forall hall]
  simp

theorem parseUsize_natToStr (n : Nat) : parseUsize (natToStr n) = some n := by
  unfold parseUsize
  have hplus : (natToStr n).head? ≠ some '+' := by
    intro hcontra
    have hc : '+' ∈ natToStr n := by
      cases hs : natToStr n with
      | nil => rw [hs] at hcontra; simp at hcontra
      | cons x xs =>
        rw [hs] at hcontra
        simp at hcontra
        simp [hs, hcontra]
    exact absurd (natToStr_all_digit n '+' hc) (by decide)
  rw [if_neg hplus, parseDigits_of_all (natToStr_ne_nil n) (natToStr_all_digit n),
    natToStr_strToNat]

/-! The dateline codec round trip. -/

theorem daysInMonth_le (y m : Nat) : daysInMonth y m ≤ 31 := by
  unfold daysInMonth
  split
  · split <;> norm_num
  · split <;> norm_num

theorem parseDate_formatDate {dt : DateTime} (h : dt.Valid) :
    parseDate (formatDate dt) = some dt := by
  obtain ⟨y, mo, d, hr, mi, se, sgn, oh, om⟩ := dt
  have hv := of_decide_eq_true h
  dsimp only at hv
  obtain ⟨h1, h2, h3, h4, h5, h6, h7, h8, h9, h10⟩ := hv
  unfold DateTime.Valid at h
  have hy : y < 10 ^ 4 := by norm_num; omega
  have hmo : mo < 10 ^ 2 := by norm_num; omega
  have hdm := daysInMonth_le y mo
  have hd : d < 10 ^ 2 := by norm_num; omega
  have hhr : hr < 10 ^ 2 := by norm_num; omega
  have hmi : mi < 10 ^ 2 := by norm_num; omega
  have hse : se < 10 ^ 2 := by norm_num; omega
  have hoh : oh < 10 ^ 2 := by norm_num; omega
  have hom : om < 10 ^ 2 := by norm_num; omega
  have e14 : (1:Nat) ≤ 4 := by norm_num
  have e12 : (1:Nat) ≤ 2 := by norm_num
  unfold parseDate formatDate
  dsimp only
  rw [show padN 2 om = padN 2 om ++ ([] : Chars) by simp]
  simp only [Option.pure_def, Option.bind_eq_bind, List.append_assoc,
    List.cons_append]
  simp only [readN_padN _ hy e14, Option.some_bind]
  simp only [expectC_cons, Option.some_bind]
  simp only [readN_padN _ hmo e12, Option.some_bind]
  simp only [expectC_cons, Option.some_bind]
  simp only [readN_padN _ hd e12, Option.some_bind]
  simp only [expectC_cons, Option.some_bind]
  simp only [readN_padN _ hhr e12, Option.some_bind]
  simp only [expectC_cons, Option.some_bind]
  simp only [readN_padN _ hmi e12, Option.some_bind]
  simp only [expectC_cons, Option.some_bind]
  simp only [readN_padN _ hse e12, Option.some_bind]
  have hcond : ((if sgn = true then '-' else '+') = '+' ∨
      (if sgn = true then '-' else '+') = '-') := by
    cases sgn
    · exact Or.inl (by simp)
    · exact Or.inr (by simp)
  have hsg : (decide ((if sgn = true then '-' else '+') = '-')) = sgn := by
    cases sgn <;> simp
  simp only [if_pos hcond]
  simp only [readN_padN _ hoh e12, Option.some_bind]
  simp only [readN_padN _ hom e12, Option.some_bind]
  simp only [List.isEmpty_nil, if_true, hsg]
  simp only [h, eq_self_iff_true, if_true]

/-! Character classes of the formatted dateline. -/

theorem head?_mem : ∀ {l : Chars} {c : Char}, l.head? = some c → c ∈ l := by
  intro l c h
  cases l with
  | nil => simp at h
  | cons x xs =>
    simp at h
    simp [h]

theorem formatDate_chars {dt : DateTime} {c : Char} (hc : c ∈ formatDate dt) :
    c.isDigit = true ∨ c = '-' ∨ c = ':' ∨ c = ' ' ∨ c = '+' := by
  unfold formatDate at hc
  simp only [List.mem_append, List.mem_cons, or_assoc] at hc
  rcases hc with h | h | h | h | h | h | h | h | h | h | h | h | h | h
  · exact Or.inl (padN_all_digit _ _ _ h)
  · exact Or.inr (Or.inl h)
  · exact Or.inl (padN_all_digit _ _ _ h)
  · exact Or.inr (Or.inl h)
  · exact Or.inl (padN_all_digit _ _ _ h)
  · exact Or.inr (Or.inr (Or.inr (Or.inl h)))
  · exact Or.inl (padN_all_digit _ _ _ h)
  · exact Or.inr (Or.inr (Or.inl h))
  · exact Or.inl (padN_all_digit _ _ _ h)
  · exact Or.inr (Or.inr (Or.inl h))
  · exact Or.inl (padN_all_digit _ _ _ h)
  · cases hb : dt.offNeg with
    | true => rw [hb] at h; simp at h; exact Or.inr (Or.inl h)
    | false => rw [hb] at h; simp at h; exact Or.inr (Or.inr (Or.inr (Or.inr h)))
  · exact Or.inl (padN_all_digit _ _ _ h)
  · exact Or.inl (padN_all_digit _ _ _ h)

theorem formatDate_no_nl {dt : DateTime} : '\n' ∉ formatDate dt := by
  intro hmem
  rcases formatDate_chars hmem with h | h | h | h | h <;> exact absurd h (by decide)

theorem formatDate_no_cr {dt : DateTime} : '\r' ∉ formatDate dt := by
  intro hmem
  rcases formatDate_chars hmem with h | h | h | h | h <;> exact absurd h (by decide)

theorem formatDate_ne_nil (dt : DateTime) : formatDate dt ≠ [] := by
  unfold formatDate
  intro h
  rcases List.append_eq_nil.mp h with ⟨h1, _⟩
  rcases List.append_eq_nil.mp h1 with ⟨h2, _⟩
  rcases List.append_eq_nil.mp h2 with ⟨h3, _⟩
  rcases List.append_eq_nil.mp h3 with ⟨h4, _⟩
  rcases List.append_eq_nil.mp h4 with ⟨h5, _⟩
  rcases List.append_eq_nil.mp h5 with ⟨h6, _⟩
  rcases List.append_eq_nil.mp h6 with ⟨h7, _⟩
  exact padN_ne_nil 4 dt.year h7

theorem padN_last_digit (k n : Nat) :
    ∃ c, (padN k n).getLast? = some c ∧ c.isDigit = true := by
  cases hl : (padN k n).getLast? with
  | none =>
    rw [List.getLast?_eq_none_iff] at hl
    exact absurd hl (padN_ne_nil k n)
  | some c =>
    exact ⟨c, rfl, padN_all_digit k n c (getLast?_mem hl)⟩

theorem padN_head_digit (k n : Nat) :
    ∃ c, (padN k n).head? = some c ∧ c.isDigit = true := by
  cases hp : padN k n with
  | nil => exact absurd hp (padN_ne_nil k n)
  | cons x xs =>
    refine ⟨x, by simp, ?_⟩
    have : x ∈ padN k n := by rw [hp]; exact List.mem_cons_self x xs
    exact padN_all_digit k n x this

theorem formatDate_last_digit (dt : DateTime) :
    ∃ c, (formatDate dt).getLast? = some c ∧ c.isDigit = true := by
  obtain ⟨c, hc, hd⟩ := padN_last_digit 2 dt.offMinute
  refine ⟨c, ?_, hd⟩
  unfold formatDate
  rw [List.getLast?_append, hc]
  rfl

theorem formatDate_head_digit (dt : DateTime) :
    ∃ c, (formatDate dt).head? = some c ∧ c.isDigit = true := by
  obtain ⟨c, hc, hd⟩ := padN_head_digit 4 dt.year
  refine ⟨c, ?_, hd⟩
  unfold formatDate
  simp only [List.append_assoc]
  rw [List.head?_append, hc]
  rfl

/-! Round trips of the dateline codec (`parse_dateline` on the output of
`fmt_write_dateline`, final newline stripped by `lines`). -/

theorem parse_dateline_noidx {dt : DateTime} (h : dt.Valid) :
    Message.parse_dateline (formatDate dt) = some (none, dt) := by
  unfold Message.parse_dateline
  obtain ⟨c, hlast, hdig⟩ := formatDate_last_digit dt
  rw [hlast, if_neg (by simp [isDigit_ne hdig (by decide : (')' : Char).isDigit = false)])]
  rw [parseDate_formatDate h]
  rfl

theorem idxpart_no_space {n : Nat} {c : Char}
    (hc : c ∈ ('(' :: natToStr n) ++ [')']) : c ≠ ' ' := by
  rcases List.mem_append.mp hc with h | h
  · rcases List.mem_cons.mp h with h1 | h1
    · subst h1; decide
    · exact isDigit_ne (natToStr_all_digit n c h1) (by decide)
  · simp at h
    subst h
    decide

theorem parse_dateline_idx {dt : DateTime} (n : Nat) (h : dt.Valid) :
    Message.parse_dateline (formatDate dt ++ ' ' :: '(' :: natToStr n ++ [')']) =
      some (some n, dt) := by
  unfold Message.parse_dateline
  have hshape : formatDate dt ++ ' ' :: '(' :: natToStr n ++ [')'] =
      (formatDate dt ++ (' ' :: '(' :: natToStr n)) ++ [')'] := by
    simp [List.append_assoc]
  have hlast : (formatDate dt ++ ' ' :: '(' :: natToStr n ++ [')']).getLast? =
      some ')' := by
    rw [hshape, List.getLast?_concat]
  rw [hlast, if_pos rfl]
  have hshape2 : formatDate dt ++ ' ' :: '(' :: natToStr n ++ [')'] =
      formatDate dt ++ ' ' :: (('(' :: natToStr n) ++ [')']) := by
    simp [List.append_assoc]
  rw [hshape2, rsplitOnce_append (formatDate dt)
    (fun hmem => absurd rfl (idxpart_no_space hmem))]
  dsimp only
  have hlen : ¬ (('(' :: natToStr n) ++ [')']).length < 2 := by
    simp only [List.length_append, List.length_cons, List.length_singleton]
    omega
  rw [if_neg hlen]
  have hinner : ((('(' :: natToStr n) ++ [')']).drop 1).dropLast = natToStr n := by
    rw [List.cons_append, List.drop_one, List.tail_cons, List.dropLast_concat]
  rw [hinner, parseUsize_natToStr, parseDate_formatDate h]
  rfl

/-! Lines of the serialized body. -/

theorem joinNL_eq_intercalate :
    ∀ {ls : List Chars}, ls ≠ [] → joinNL ls = intercalateNL ls ++ ['\n'] := by
  intro ls
  induction ls with
  | nil => intro h; exact absurd rfl h
  | cons l rest ih =>
    intro _
    cases rest with
    | nil => rfl
    | cons l2 rest2 =>
      show l ++ '\n' :: joinNL (l2 :: rest2) =
        (l ++ '\n' :: intercalateNL (l2 :: rest2)) ++ ['\n']
      rw [ih (by simp)]
      simp [List.append_assoc]

theorem intercalateNL_cons {l : Chars} {ls : List Chars} (h : ls ≠ []) :
    intercalateNL (l :: ls) = l ++ '\n' :: intercalateNL ls := by
  cases ls with
  | nil => exact absurd rfl h
  | cons a b => rfl

theorem rustLines_joinNL :
    ∀ {ls : List Chars}, ls ≠ [] → (∀ l ∈ ls, '\n' ∉ l ∧ '\r' ∉ l) →
      rustLines (joinNL ls) = ls := by
  intro ls
  induction ls with
  | nil => intro h _; exact absurd rfl h
  | cons l rest ih =>
    intro _ hall
    obtain ⟨hnl, hcr⟩ := hall l (List.mem_cons_self l rest)
    show rustLines (l ++ '\n' :: joinNL rest) = l :: rest
    rw [rustLines_append _ hnl, stripCR_of_not_mem hcr]
    cases rest with
    | nil => rfl
    | cons l2 rest2 =>
      rw [ih (by simp) (fun x hx => hall x (List.mem_cons_of_mem _ hx))]

theorem rustLinesAux_ne_nil : ∀ (s acc : Chars), rustLinesAux acc s ≠ [] := by
  intro s
  induction s with
  | nil => intro acc; simp [rustLinesAux]
  | cons c rest ih =>
    intro acc
    by_cases hc : c = '\n'
    · subst hc
      rw [rustLinesAux_cons_nl]
      simp
    · rw [rustLinesAux_cons_ne acc rest hc]
      exact ih (c :: acc)

theorem rustLines_ne_nil {s : Chars} (h : s ≠ []) : rustLines s ≠ [] := by
  unfold rustLines
  have hie : s.isEmpty = false := by
    cases s with | nil => exact absurd rfl h | cons x xs => simp [List.isEmpty]
  rw [hie]
  simp only [Bool.false_eq_true, if_false]
  exact rustLinesAux_ne_nil s []

theorem rustLines_intercalate :
    ∀ {ls : List Chars}, ls ≠ [] → (∀ l ∈ ls, '\n' ∉ l ∧ '\r' ∉ l) →
      (∀ ll, ls.getLast? = some ll → ll ≠ []) →
      rustLines (intercalateNL ls) = ls := by
  intro ls
  induction ls with
  | nil => intro h _ _; exact absurd rfl h
  | cons l rest ih =>
    intro _ hall hlast
    obtain ⟨hnl, hcr⟩ := hall l (List.mem_cons_self l rest)
    cases rest with
    | nil =>
      have hlne : l ≠ [] := hlast l rfl
      show rustLines l = [l]
      exact rustLines_no_nl hnl hlne
    | cons l2 rest2 =>
      rw [intercalateNL_cons (by simp)]
      rw [rustLines_append _ hnl, stripCR_of_not_mem hcr]
      rw [ih (by simp) (fun x hx => hall x (List.mem_cons_of_mem _ hx))
        (fun ll hll => hlast ll (by rw [← hll]; exact (List.getLast?_cons_cons ..).symm ▸ rfl))]

theorem exists_first_nl :
    ∀ {c : Chars}, '\n' ∈ c → ∃ a r, c = a ++ '\n' :: r ∧ '\n' ∉ a := by
  intro c
  induction c with
  | nil => intro h; simp at h
  | cons x t ih =>
    intro h
    by_cases hx : x = '\n'
    · subst hx
      exact ⟨[], t, rfl, by simp⟩
    · have hmem : '\n' ∈ t := by
        rcases List.mem_cons.mp h with h1 | h1
        · exact absurd h1.symm hx
        · exact h1
      obtain ⟨a, r, heq, hna⟩ := ih hmem
      refine ⟨x :: a, r, by rw [heq]; rfl, ?_⟩
      intro hmem2
      rcases List.mem_cons.mp hmem2 with h2 | h2
      · exact hx h2.symm
      · exact hna h2

theorem intercalate_rustLines_aux :
    ∀ (N : Nat) (c : Chars), c.length ≤ N → c ≠ [] → '\r' ∉ c →
      c.getLast? ≠ some '\n' → intercalateNL (rustLines c) = c := by
  intro N
  induction N with
  | zero =>
    intro c hlen hne _ _
    have : c = [] := by
      cases c with
      | nil => rfl
      | cons x xs => simp at hlen
    exact absurd this hne
  | succ N ih =>
    intro c hlen hne hcr hlast
    by_cases hnl : '\n' ∈ c
    · obtain ⟨a, r, heq, hna⟩ := exists_first_nl hnl
      have hrne : r ≠ [] := by
        intro hr
        subst hr
        rw [heq] at hlast
        have : (a ++ ['\n']).getLast? = some '\n' := List.getLast?_concat a
        exact hlast this
      have hcra : '\r' ∉ a := by
        intro hm
        exact hcr (by rw [heq]; exact List.mem_append.mpr (Or.inl hm))
      have hcrr : '\r' ∉ r := by
        intro hm
        exact hcr (by
          rw [heq]
          exact List.mem_append.mpr (Or.inr (List.mem_cons_of_mem _ hm)))
      have hlastr : r.getLast? ≠ some '\n' := by
        intro hm
        refine hlast ?_
        rw [heq]
        have h1 : (a ++ '\n' :: r) = (a ++ ['\n']) ++ r := by simp
        rw [h1, List.getLast?_append, hm]
        rfl
      have hlenr : r.length ≤ N := by
        have : c.length = a.length + 1 + r.length := by
          rw [heq]
          simp
          omega
        omega
      rw [heq, rustLines_append _ hna, stripCR_of_not_mem hcra]
      have hr1 : rustLines r ≠ [] := rustLines_ne_nil hrne
      rw [intercalateNL_cons hr1, ih r hlenr hrne hcrr hlastr]
    · rw [rustLines_no_nl hnl hne]
      rfl

theorem intercalate_rustLines {c : Chars} (hne : c ≠ []) (hcr : '\r' ∉ c)
    (hlast : c.getLast? ≠ some '\n') : intercalateNL (rustLines c) = c :=
  intercalate_rustLines_aux c.length c (le_refl _) hne hcr hlast

/-! The body escaping round trip. -/

theorem esc_unesc {l : Chars} (h : l ≠ str "..") :
    unescLine (escLine l) = l := by
  unfold escLine unescLine
  by_cases h1 : l = str "."
  · rw [if_pos h1, if_pos rfl]
    exact h1.symm
  · rw [if_neg h1, if_neg h]

theorem escLine_no_nl {l : Chars} (h : '\n' ∉ l) : '\n' ∉ escLine l := by
  unfold escLine
  split
  · decide
  · exact h

theorem escLine_no_cr {l : Chars} (h : '\r' ∉ l) : '\r' ∉ escLine l := by
  unfold escLine
  split
  · decide
  · exact h

theorem parseBody_escLines {ls : List Chars} (h : ∀ l ∈ ls, l ≠ str "..") :
    parseBody (ls.map escLine) = joinNL ls := by
  unfold parseBody
  rw [List.map_map]
  congr 1
  have : ∀ l ∈ ls, (unescLine ∘ escLine) l = id l := by
    intro l hl
    exact esc_unesc (h l hl)
  rw [List.map_congr_left this, List.map_id]

theorem content_last_ne_nl {c : Chars} (hne : c ≠ [])
    (htrim : rustTrim c = c) : c.getLast? ≠ some '\n' := by
  intro hgl
  have := rustTrim_last_not_ws (htrim.symm ▸ hgl)
  simp at this

theorem body_content {c : Chars} (hcr : '\r' ∉ c)
    (hdd : (str "..") ∉ rustLines c) (htrim : rustTrim c = c) :
    rustTrim (parseBody ((rustLines c).map escLine)) = c := by
  by_cases hc : c = []
  · subst hc
    rfl
  · have hnodots : ∀ l ∈ rustLines c, l ≠ str ".." := by
      intro l hl heq
      exact hdd (heq ▸ hl)
    rw [parseBody_escLines hnodots,
      joinNL_eq_intercalate (rustLines_ne_nil hc),
      rustTrim_ws_suffix _ (by intro x hx; simp at hx; simp [hx]),
      intercalate_rustLines hc hcr (content_last_ne_nl hc htrim), htrim]

theorem body_lines {c : Chars} (hcr : '\r' ∉ c) :
    rustLines (Message.fmt_write_body c) = (rustLines c).map escLine := by
  unfold Message.fmt_write_body
  by_cases hc : c = []
  · subst hc
    rfl
  · refine rustLines_joinNL ?_ ?_
    · simp [rustLines_ne_nil hc]
    · intro l hl
      simp only [List.mem_map] at hl
      obtain ⟨l0, hl0, rfl⟩ := hl
      exact ⟨escLine_no_nl (rustLines_not_nl hl0),
        escLine_no_cr (fun hm => hcr (rustLines_subset hl0 '\r' hm))⟩

/-! The message codec round trip. -/

theorem idxpart_chars {n : Nat} {c : Char}
    (hc : c ∈ ' ' :: '(' :: natToStr n ++ [')']) :
    c = ' ' ∨ c = '(' ∨ c.isDigit = true ∨ c = ')' := by
  have hc2 : c ∈ (' ' :: '(' :: natToStr n) ++ [')'] := hc
  rcases List.mem_append.mp hc2 with h | h
  · rcases List.mem_cons.mp h with h1 | h1
    · exact Or.inl h1
    · rcases List.mem_cons.mp h1 with h2 | h2
      · exact Or.inr (Or.inl h2)
      · exact Or.inr (Or.inr (Or.inl (natToStr_all_digit n c h2)))
  · simp at h
    exact Or.inr (Or.inr (Or.inr h))

theorem dlidx_no_nl {dt : DateTime} {n : Nat} :
    '\n' ∉ formatDate dt ++ ' ' :: '(' :: natToStr n ++ [')'] := by
  intro hm
  simp only [List.mem_append, List.mem_cons, List.mem_singleton, or_assoc] at hm
  rcases hm with h | h | h | h | h
  · exact formatDate_no_nl h
  · exact absurd h (by decide)
  · exact absurd h (by decide)
  · exact absurd (natToStr_all_digit n _ h) (by decide)
  · exact absurd h (by decide)

theorem dlidx_no_cr {dt : DateTime} {n : Nat} :
    '\r' ∉ formatDate dt ++ ' ' :: '(' :: natToStr n ++ [')'] := by
  intro hm
  simp only [List.mem_append, List.mem_cons, List.mem_singleton, or_assoc] at hm
  rcases hm with h | h | h | h | h
  · exact formatDate_no_cr h
  · exact absurd h (by decide)
  · exact absurd h (by decide)
  · exact absurd (natToStr_all_digit n _ h) (by decide)
  · exact absurd h (by decide)

theorem from_str_eq {s dateline : Chars} {rest : List Chars}
    {idx : Option Nat} {dt : DateTime}
    (hl : rustLines s = dateline :: rest)
    (hd : Message.parse_dateline dateline = some (idx, dt)) :
    Message.from_str s =
      match Message.new (idx.getD 0) dt (rustTrim (parseBody rest)) with
      | none => RustResult.fatal
      | some m => RustResult.ok m := by
  unfold Message.from_str
  rw [hl]
  dsimp only
  rw [hd]

/-- Core of the message round trip: parsing a serialized message whose
dateline line `dl` parses back and whose body is the escaped content. -/
theorem from_str_fmt_core (m : Message) (dl : Chars) (idx : Option Nat)
    (hnl : '\n' ∉ dl) (hcr2 : '\r' ∉ dl)
    (hpd : Message.parse_dateline dl = some (idx, m.date))
    (hcr : '\r' ∉ m.content)
    (hdd : (str "..") ∉ rustLines m.content)
    (htrim : rustTrim m.content = m.content)
    (hrefs : Message.find_references m.content = some m.references) :
    Message.from_str (dl ++ '\n' :: Message.fmt_write_body m.content) =
      RustResult.ok ⟨idx.getD 0, m.date, m.content, m.references, []⟩ := by
  have hlines : rustLines (dl ++ '\n' :: Message.fmt_write_body m.content) =
      dl :: (rustLines m.content).map escLine := by
    rw [rustLines_append _ hnl, stripCR_of_not_mem hcr2, body_lines hcr]
  rw [from_str_eq hlines hpd]
  unfold Message.new
  rw [body_content hcr hdd htrim, hrefs]
  rfl

theorem fmt_full_true_eq (m : Message) :
    Message.fmt_full m true =
      (formatDate m.date ++ ' ' :: '(' :: natToStr m.id ++ [')']) ++
        '\n' :: Message.fmt_write_body m.content := by
  unfold Message.fmt_full Message.fmt_write_dateline
  simp [List.append_assoc]

theorem fmt_full_false_eq (m : Message) :
    Message.fmt_full m false =
      formatDate m.date ++ '\n' :: Message.fmt_write_body m.content := by
  unfold Message.fmt_full Message.fmt_write_dateline
  simp [List.append_assoc]

theorem from_str_fmt_full (m : Message) (b : Bool)
    (hdt : m.date.Valid) (hcr : '\r' ∉ m.content)
    (hdd : (str "..") ∉ rustLines m.content)
    (htrim : rustTrim m.content = m.content)
    (hrefs : Message.find_references m.content = some m.references) :
    Message.from_str (Message.fmt_full m b) =
      RustResult.ok ⟨(if b then m.id else 0), m.date, m.content, m.references, []⟩ := by
  cases b with
  | true =>
    rw [fmt_full_true_eq]
    have hc := from_str_fmt_core m
      (formatDate m.date ++ ' ' :: '(' :: natToStr m.id ++ [')'])
      (some m.id) dlidx_no_nl dlidx_no_cr (parse_dateline_idx m.id hdt)
      hcr hdd htrim hrefs
    simpa using hc
  | false =>
    rw [fmt_full_false_eq]
    have hc := from_str_fmt_core m (formatDate m.date) none
      formatDate_no_nl formatDate_no_cr (parse_dateline_noidx hdt)
      hcr hdd htrim hrefs
    simpa using hc

/-! Claim C2. -/

/-- Claim C2, amended.  Round trip of the message codec: for every
message built by `Message::new` (references derived from the content,
empty backlinks) from a valid timestamp and a content string that is
trimmed, contains no carriage return and no line equal to `..`, and for
any `print_index` consistent with the id recovered on parse
(`print_index = true`, or the id is `0`), parsing the formatted message
returns the message itself.  (The original claim, quantified over every
content string, is refuted by `message_roundtrip_counterexample`.) -/
theorem message_roundtrip_amended (id0 : Nat) (dt : DateTime) (c : Chars)
    (refs : List Reference) (printIndex : Bool)
    (hdt : dt.Valid) (hcr : '\r' ∉ c) (hdd : (str "..") ∉ rustLines c)
    (htrim : rustTrim c = c)
    (hrefs : Message.find_references c = some refs)
    (hpi : printIndex = true ∨ id0 = 0) :
    Message.from_str (Message.fmt_full ⟨id0, dt, c, refs, []⟩ printIndex) =
      RustResult.ok ⟨id0, dt, c, refs, []⟩ := by
  have h := from_str_fmt_full ⟨id0, dt, c, refs, []⟩ printIndex hdt hcr hdd
    htrim hrefs
  rcases hpi with h1 | h1
  · subst h1
    simpa using h
  · subst h1
    cases printIndex <;> simpa using h

/-- Claim C2, witness for the amended round trip at a concrete message. -/
theorem message_roundtrip_amended_witness :
    Message.from_str
      (Message.fmt_full ⟨0, dtEx, str "hello", [], []⟩ false) =
      RustResult.ok ⟨0, dtEx, str "hello", [], []⟩ :=
  message_roundtrip_amended 0 dtEx (str "hello") [] false (by decide)
    (by decide) (by decide) (by decide) (by decide) (Or.inr rfl)

/-- Claim C2, counterexample to the claim as stated: the message whose
content is the single line `..` (built by `Message::new`, so the claim's
construction applies, with `print_index = false` consistent with its id
`0`) does not round trip — `fmt_write_body` writes `..` verbatim, and
parsing maps it back to `.`. -/
theorem message_roundtrip_counterexample :
    Message.new 0 dtEx (str "..") = some ⟨0, dtEx, str "..", [], []⟩ ∧
    Message.from_str (Message.fmt (⟨0, dtEx, str "..", [], []⟩ : Message)) ≠
      RustResult.ok ⟨0, dtEx, str "..", [], []⟩ := by
  constructor
  · decide
  · decide

/-! Claim C1. -/

theorem push_message_eq (o : Oodle) (msg : Message) :
    o.push_message msg =
      ({ o with messages := o.messages ++
          [{ msg with id := if msg.id > 0 then
              (if msg.id < o.next_idx then o.next_idx else msg.id)
            else o.next_idx }] },
       if msg.id > 0 then
         (if msg.id < o.next_idx then o.next_idx else msg.id)
       else o.next_idx) := rfl

/-- Claim C1.  `Oodle::push_message` index assignment: with
`expected = o.next_idx` (the id of the last message plus one, or `0`
for an empty document), a declared id that is positive and at least
`expected` is kept, a positive id below `expected` is overridden to
`expected`, a zero id on a non-empty document is overridden to
`expected`; and appending messages with declared ids `[0, 5, 3, 7]` to
an empty document stores ids `[0, 5, 6, 7]`. -/
theorem push_message_index_assignment (o : Oodle) (msg : Message) :
    ((0 < msg.id → o.next_idx ≤ msg.id →
      (o.push_message msg).2 = msg.id ∧
      (o.push_message msg).1.messages = o.messages ++ [msg]) ∧
    (0 < msg.id → msg.id < o.next_idx →
      (o.push_message msg).2 = o.next_idx ∧
      (o.push_message msg).1.messages =
        o.messages ++ [{ msg with id := o.next_idx }]) ∧
    (msg.id = 0 → o.messages ≠ [] →
      (o.push_message msg).2 = o.next_idx ∧
      (o.push_message msg).1.messages =
        o.messages ++ [{ msg with id := o.next_idx }])) ∧
    (∀ (m0 m5 m3 m7 : Message) (i n f : Chars),
      m0.id = 0 → m5.id = 5 → m3.id = 3 → m7.id = 7 →
      (((((Oodle.mk i n f [] []).push_message m0).1.push_message m5).1.push_message
          m3).1.push_message m7).1.messages.map Message.id = [0, 5, 6, 7]) := by
  constructor
  · refine ⟨?_, ?_, ?_⟩
    · intro h1 h2
      rw [push_message_eq]
      have hlt : ¬ msg.id < o.next_idx := by omega
      rw [if_pos h1, if_neg hlt]
      exact ⟨rfl, rfl⟩
    · intro h1 h2
      rw [push_message_eq]
      rw [if_pos h1, if_pos h2]
      exact ⟨rfl, rfl⟩
    · intro h1 _
      rw [push_message_eq]
      have hpos : ¬ msg.id > 0 := by omega
      rw [if_neg hpos]
      exact ⟨rfl, rfl⟩
  · intro m0 m5 m3 m7 i n f h0 h5 h3 h7
    simp [Oodle.push_message, Oodle.next_idx, h0, h5, h3, h7]

/-- Claim C1, witness: a concrete instance of the regression case
(declared id `2` against expected `5` is clamped to `5`). -/
theorem push_message_index_assignment_witness :
    ((Oodle.mk (str "I") (str "T") (str "/tmp")
        [⟨4, dtEx, str "a", [], []⟩] []).push_message
      ⟨2, dtEx, str "b", [], []⟩).2 = 5 :=
  ((push_message_index_assignment
    (Oodle.mk (str "I") (str "T") (str "/tmp") [⟨4, dtEx, str "a", [], []⟩] [])
    ⟨2, dtEx, str "b", [], []⟩).1.2.1 (by decide) (by decide)).1

/-! Claim C10. -/

/-- Claim C10.  For a document whose message ids are strictly
increasing (as every document built through `new`/`new_noid` and
`push_message` is), a further `push_message` keeps them strictly
increasing, the assigned id is at least the previous last id plus one,
and the returned value is the id actually stored on the appended (now
last) message. -/
theorem push_message_monotone (o : Oodle) (msg : Message)
    (hinc : List.Chain' (fun a b : Message => a.id < b.id) o.messages) :
    List.Chain' (fun a b : Message => a.id < b.id)
      (o.push_message msg).1.messages ∧
    (o.push_message msg).1.messages.getLast? =
      some { msg with id := (o.push_message msg).2 } ∧
    (∀ m, o.messages.getLast? = some m → m.id + 1 ≤ (o.push_message msg).2) := by
  have hge : o.next_idx ≤ (o.push_message msg).2 := by
    rw [push_message_eq]
    dsimp only
    by_cases h1 : msg.id > 0
    · rw [if_pos h1]
      by_cases h2 : msg.id < o.next_idx
      · rw [if_pos h2]
      · rw [if_neg h2]
        omega
    · rw [if_neg h1]
  refine ⟨?_, ?_, ?_⟩
  · rw [push_message_eq]
    dsimp only
    rw [List.chain'_append]
    refine ⟨hinc, List.chain'_singleton _, ?_⟩
    intro x hx y hy
    simp only [List.head?_cons, Option.mem_def, Option.some_inj] at hy
    subst hy
    dsimp only
    have hx2 : o.next_idx = x.id + 1 := by
      unfold Oodle.next_idx
      rw [hx]
    rw [push_message_eq] at hge
    dsimp only at hge
    omega
  · rw [push_message_eq]
    dsimp only
    rw [List.getLast?_concat]
  · intro m hm
    have : o.next_idx = m.id + 1 := by
      unfold Oodle.next_idx
      rw [hm]
    omega

/-- Claim C10, witness at a concrete two-message document. -/
theorem push_message_monotone_witness :
    ((Oodle.mk (str "I") (str "T") (str "/tmp")
        [⟨0, dtEx, str "a", [], []⟩, ⟨3, dtEx, str "b", [], []⟩] []).push_message
      ⟨0, dtEx, str "c", [], []⟩).1.messages.getLast? =
      some ⟨4, dtEx, str "c", [], []⟩ :=
  (push_message_monotone
    (Oodle.mk (str "I") (str "T") (str "/tmp")
      [⟨0, dtEx, str "a", [], []⟩, ⟨3, dtEx, str "b", [], []⟩] [])
    ⟨0, dtEx, str "c", [], []⟩
    (by refine List.chain'_cons.mpr ⟨?_, List.chain'_singleton _⟩; decide)).2.1

/-! Claim C9. -/

/-- Claim C9.  The lone-period-line escaping: `fmt_write_body` writes a
content line that is exactly `.` as `..` and every other line verbatim,
newline-terminated; the parse loop maps a body line `..` back to `.`
and every other line verbatim; escaping then unescaping the line `.`
returns `.`, and escaping any other line is the identity. -/
theorem lpl_escaping :
    (Message.fmt_write_body (str ".") = str "..\n") ∧
    (∀ l : Chars, '\n' ∉ l → l ≠ [] → l ≠ str "." →
      Message.fmt_write_body l = l ++ str "\n") ∧
    (parseBody [str ".."] = str ".\n") ∧
    (∀ l : Chars, l ≠ str ".." → parseBody [l] = l ++ str "\n") ∧
    (unescLine (escLine (str ".")) = str ".") ∧
    (∀ l : Chars, l ≠ str "." → escLine l = l) := by
  refine ⟨by decide, ?_, by decide, ?_, by decide, ?_⟩
  · intro l hnl hne hdot
    unfold Message.fmt_write_body
    rw [rustLines_no_nl hnl hne]
    show joinNL [escLine l] = l ++ str "\n"
    unfold escLine
    rw [if_neg hdot]
    rfl
  · intro l h
    show joinNL [unescLine l] = l ++ str "\n"
    unfold unescLine
    rw [if_neg h]
    rfl
  · intro l h
    unfold escLine
    rw [if_neg h]

/-- Claim C9, witness: escaping is the identity on an ordinary line. -/
theorem lpl_escaping_witness :
    Message.fmt_write_body (str "ab") = str "ab" ++ str "\n" :=
  lpl_escaping.2.1 (str "ab") (by decide) (by decide) (by decide)

/-! Claim C3. -/

/-- Claim C3 is false of the code (a code bug): parsing is not
panic-free.  `Message::parse_dateline` calls
`usize::from_str_radix(idx, 10).unwrap()` on the bracketed dateline
suffix, so a suffix that is not a valid non-negative integer aborts the
process instead of producing a recoverable `MalformedDateline` error
(`none` models the panic); and `impl FromStr for Oodle` hits `todo!()`
(a panic) on a malformed title line instead of returning an error. -/
theorem parsing_aborts :
    Message.parse_dateline (str "2022-06-01 13:45:00-0500 (x)") = none ∧
    (∀ fresh : Chars,
      Oodle.from_str fresh (str "bad title\nrest\n") = RustResult.fatal) := by
  refine ⟨by decide, ?_⟩
  intro fresh
  rfl

/-! Claim C4. -/

/-- Claim C4 is false of the code (a code bug): the reference scan is
not total.  `Message::find_references` takes `end_idx` from
`s.find('}')` searched from the start of the remaining text rather than
from the `'{'` position, so when a `'}'` precedes the first `'{'` the
slice `&s[start_idx..end_idx + 1]` is empty or reversed and the scan
panics (`none` models the panic) instead of stopping and returning the
references found: on `"}{"` via `Reference::from_str("")`
(index underflow), and on `"a} b{c}"` via a reversed slice. -/
theorem find_references_aborts :
    Message.find_references (str "\x7d\x7b") = none ∧
    Message.find_references (str "a\x7d b\x7bc\x7d") = none := by
  constructor
  · decide
  · decide

/-! Claim C5. -/

/-- Claim C5 is false of the code (a code bug): when the line after the
title is not bracket-delimited (here: the customary blank line), the
parser does not generate a fresh identifier and continue — it hits
`todo!()` and panics (`RustResult.fatal`), for every value `fresh` the
random-identifier generator could supply.  The fresh identifier is used
only when the remainder of the input contains no newline at all. -/
theorem missing_id_line_aborts :
    ∀ fresh : Chars,
      Oodle.from_str fresh
        (str "-= T =-\n\n2022-06-01 13:45:00-0500\nhi\n.\n") =
        RustResult.fatal := by
  intro fresh
  rfl

/-! Claim C6. -/

/-- Claim C6 (modelled from the spec, see `resolveReferences`): for a
message's `ToDocument` reference, resolution appends the backlink
`(source document id, source message id)` to the backlinks of every
loaded document whose identifier matches, and is a no-op — not an
error — when no loaded document matches; in the spec's scenario, after
document A's message 0 with content `\x7bB\x7d` is created (deriving the
reference) and resolved against the store `[A, B]`, document B's
backlinks contains `(A, 0)`. -/
theorem backlink_resolution :
    (∀ (store : List Oodle) (srcDoc : Chars) (srcMsg : Nat) (did : Chars),
      resolveReferences store srcDoc srcMsg [.oodle did] =
        store.map (fun o =>
          if o.id = did then
            { o with backlinks := o.backlinks ++ [⟨srcDoc, srcMsg⟩] }
          else o)) ∧
    (∀ (store : List Oodle) (srcDoc : Chars) (srcMsg : Nat) (did : Chars),
      (∀ o ∈ store, o.id ≠ did) →
      resolveReferences store srcDoc srcMsg [.oodle did] = store) ∧
    (∀ (a b : Oodle) (m : Message),
      a.id = str "A" → b.id = str "B" →
      Message.new 0 m.date (str "\x7bB\x7d") = some m →
      resolveReferences [a, b] a.id m.id m.references =
        [a, { b with backlinks := b.backlinks ++ [⟨a.id, m.id⟩] }] ∧
      (⟨a.id, m.id⟩ : Backlink) ∈
        ({ b with backlinks := b.backlinks ++ [⟨a.id, m.id⟩] } : Oodle).backlinks) := by
  refine ⟨fun store srcDoc srcMsg did => rfl, ?_, ?_⟩
  · intro store srcDoc srcMsg did h
    show store.map _ = store
    induction store with
    | nil => rfl
    | cons o os ih =>
      simp only [List.map_cons]
      rw [if_neg (h o (List.mem_cons_self o os)),
        ih (fun x hx => h x (List.mem_cons_of_mem o hx))]
  · intro a b m ha hb hm
    have hfr : Message.find_references (str "\x7bB\x7d") =
        some [Reference.oodle (str "B")] := by decide
    unfold Message.new at hm
    rw [hfr] at hm
    simp only [Option.map_some'] at hm
    have hme := Option.some.inj hm
    have hid : m.id = 0 := by rw [← hme]
    have hrefs : m.references = [Reference.oodle (str "B")] := by rw [← hme]
    have hne : ¬(a.id = str "B") := by rw [ha]; decide
    rw [hrefs]
    refine ⟨?_, List.mem_append_right _ (List.mem_singleton.mpr rfl)⟩
    show ([a, b].map (fun o =>
      if o.id = str "B" then
        { o with backlinks := o.backlinks ++ [⟨a.id, m.id⟩] }
      else o)) = _
    simp only [List.map_cons, List.map_nil]
    rw [if_neg hne, if_pos hb]

/-- Claim C6, witness: the spec's scenario at a concrete store. -/
theorem backlink_resolution_witness :
    resolveReferences
        [⟨str "A", str "TA", str "/tmp", [], []⟩,
         ⟨str "B", str "TB", str "/tmp", [], []⟩]
        (str "A") 0 [Reference.oodle (str "B")] =
      [⟨str "A", str "TA", str "/tmp", [], []⟩,
       ⟨str "B", str "TB", str "/tmp", [], [⟨str "A", 0⟩]⟩] ∧
    (⟨str "A", 0⟩ : Backlink) ∈
      ([⟨str "A", 0⟩] : List Backlink) := by
  have h := backlink_resolution.2.2
    ⟨str "A", str "TA", str "/tmp", [], []⟩
    ⟨str "B", str "TB", str "/tmp", [], []⟩
    ⟨0, dtEx, str "\x7bB\x7d", [Reference.oodle (str "B")], []⟩
    rfl rfl (by decide)
  exact ⟨h.1, h.2⟩

/-! Claim C8. -/

/-- Claim C8: serialization of a document walks its messages with a
running expected counter starting at 0; a message's index suffix is
printed iff the counter disagrees with its id (in which case the
counter is reset to that id), each message is followed by the
terminator line and the counter is incremented; a document with message
ids `[0, 2]` prints a ` (2)` suffix on the second message, one with ids
`[0, 1]` prints no suffix at all. -/
theorem serialization_jump_markers :
    (∀ (idx : Nat) (m : Message) (rest : List Message),
      Oodle.fmtMsgs idx (m :: rest) =
        if idx = m.id then
          '\n' :: (m.fmt_full false ++ str ".\n") ++ Oodle.fmtMsgs (idx + 1) rest
        else
          '\n' :: (m.fmt_full true ++ str ".\n") ++ Oodle.fmtMsgs (m.id + 1) rest) ∧
    (∀ o : Oodle,
      Oodle.fmt o =
        str "-= " ++ o.name ++ str " =-\n" ++ '[' :: o.id ++ str "]\n" ++
          Oodle.fmtMsgs 0 o.messages) ∧
    (∀ m0 m1 : Message, m0.id = 0 → m1.id = 2 →
      Oodle.fmtMsgs 0 [m0, m1] =
        '\n' :: (m0.fmt_full false ++ str ".\n") ++
          ('\n' :: (m1.fmt_full true ++ str ".\n")) ∧
      m1.fmt_full true =
        formatDate m1.date ++ str " (2)" ++
          '\n' :: Message.fmt_write_body m1.content) ∧
    (∀ m0 m1 : Message, m0.id = 0 → m1.id = 1 →
      Oodle.fmtMsgs 0 [m0, m1] =
        '\n' :: (m0.fmt_full false ++ str ".\n") ++
          ('\n' :: (m1.fmt_full false ++ str ".\n"))) := by
  have step : ∀ (idx : Nat) (m : Message) (rest : List Message),
      Oodle.fmtMsgs idx (m :: rest) =
        if idx = m.id then
          '\n' :: (m.fmt_full false ++ str ".\n") ++ Oodle.fmtMsgs (idx + 1) rest
        else
          '\n' :: (m.fmt_full true ++ str ".\n") ++ Oodle.fmtMsgs (m.id + 1) rest := by
    intro idx m rest
    by_cases h : idx = m.id
    · rw [if_pos h]
      conv_lhs => unfold Oodle.fmtMsgs
      rw [if_neg (not_not_intro h)]
    · rw [if_neg h]
      conv_lhs => unfold Oodle.fmtMsgs
      rw [if_pos h]
  have snil : ∀ idx : Nat, Oodle.fmtMsgs idx [] = [] := fun _ => rfl
  refine ⟨step, fun o => rfl, ?_, ?_⟩
  · intro m0 m1 h0 h1
    constructor
    · rw [step, if_pos h0.symm, step,
        if_neg (show ¬(0 + 1 = m1.id) by rw [h1]; norm_num), snil,
        List.append_nil]
    · rw [fmt_full_true_eq, h1]
      have h2 : natToStr 2 = ['2'] := by decide
      have hs : str " (2)" = ' ' :: '(' :: '2' :: [')'] := rfl
      rw [h2, hs]
      simp only [List.append_assoc, List.cons_append, List.nil_append]
  · intro m0 m1 h0 h1
    rw [step, if_pos h0.symm, step,
      if_pos (show 0 + 1 = m1.id by rw [h1]), snil, List.append_nil]

/-- Claim C8, witness: concrete documents with message ids `[0, 2]`. -/
theorem serialization_jump_markers_witness :
    Oodle.fmtMsgs 0
        [⟨0, dtEx, str "a", [], []⟩, ⟨2, dtEx, str "b", [], []⟩] =
      '\n' :: ((⟨0, dtEx, str "a", [], []⟩ : Message).fmt_full false ++ str ".\n") ++
        ('\n' :: ((⟨2, dtEx, str "b", [], []⟩ : Message).fmt_full true ++ str ".\n")) ∧
    (⟨2, dtEx, str "b", [], []⟩ : Message).fmt_full true =
      formatDate dtEx ++ str " (2)" ++
        '\n' :: Message.fmt_write_body (str "b") :=
  serialization_jump_markers.2.2.1 _ _ rfl rfl

/-! Infrastructure for the document round trip (claim C7). -/

theorem getLast?_append_some {l₁ l₂ : Chars} {c : Char}
    (h : l₂.getLast? = some c) : (l₁ ++ l₂).getLast? = some c := by
  rw [List.getLast?_append, h]
  rfl

theorem getLast?_cons_some {a : Char} {X : Chars} {c : Char}
    (h : X.getLast? = some c) : (a :: X).getLast? = some c :=
  @getLast?_append_some [a] X c h

theorem escLine_ne_dot (l : Chars) : escLine l ≠ str "." := by
  unfold escLine
  by_cases h : l = str "."
  · rw [if_pos h]
    decide
  · rw [if_neg h]
    exact h

theorem escLine_ne_nil {l : Chars} (h : l ≠ []) : escLine l ≠ [] := by
  unfold escLine
  by_cases hd : l = str "."
  · rw [if_pos hd]
    decide
  · rw [if_neg hd]
    exact h

theorem escLine_getLast_not_ws {l : Chars} {ch : Char}
    (h : l.getLast? = some ch) (hw : ch.isWhitespace = false) :
    ∃ c, (escLine l).getLast? = some c ∧ c.isWhitespace = false := by
  unfold escLine
  by_cases hd : l = str "."
  · rw [if_pos hd]
    exact ⟨'.', by decide, by decide⟩
  · rw [if_neg hd]
    exact ⟨ch, h, hw⟩

theorem findSub_dot_skip :
    ∀ {l : Chars} (t : Chars), '\n' ∉ l →
      findSub (str "\n.\n") (l ++ t) =
        (findSub (str "\n.\n") t).map (· + l.length) := by
  intro l
  induction l with
  | nil =>
    intro t _
    rw [List.nil_append]
    cases findSub (str "\n.\n") t <;> simp
  | cons x xs ih =>
    intro t hnl
    have hx : x ≠ '\n' := fun h => hnl (h ▸ List.mem_cons_self x xs)
    have hxs : '\n' ∉ xs := fun h => hnl (List.mem_cons_of_mem x h)
    show findSub (str "\n.\n") (x :: (xs ++ t)) = _
    conv_lhs => unfold findSub
    rw [if_neg ?hpre]
    case hpre =>
      simp only [str, List.isPrefixOf]
      intro hand
      rw [Bool.and_eq_true] at hand
      exact hx (beq_iff_eq.mp hand.1).symm
    rw [ih t hxs]
    cases findSub (str "\n.\n") t <;> simp [Nat.add_assoc]

theorem findSub_dot_line {l r : Chars} (hnl : '\n' ∉ l) (hne : l ≠ str ".") :
    findSub (str "\n.\n") (('\n' :: l) ++ '\n' :: r) =
      (findSub (str "\n.\n") ('\n' :: r)).map (· + (l.length + 1)) := by
  show findSub (str "\n.\n") ('\n' :: (l ++ '\n' :: r)) = _
  conv_lhs => unfold findSub
  rw [if_neg ?hpre]
  case hpre =>
    cases l with
    | nil =>
      intro hpf
      simp [str, List.isPrefixOf] at hpf
    | cons c cs =>
      intro hpf
      have hc : c ≠ '\n' := fun h => hnl (h ▸ List.mem_cons_self c cs)
      by_cases hcd : c = '.'
      · subst hcd
        cases cs with
        | nil => exact hne (by decide)
        | cons c2 cs2 =>
          have hc2 : c2 ≠ '\n' := fun h =>
            hnl (by rw [h]; exact List.mem_cons_of_mem _ (List.mem_cons_self _ _))
          simp [str, List.isPrefixOf] at hpf
          exact hc2 hpf.symm
      · simp [str, List.isPrefixOf] at hpf
        exact hcd hpf.1.symm
  rw [findSub_dot_skip _ hnl]
  cases findSub (str "\n.\n") ('\n' :: r) <;> simp [Nat.add_assoc]

theorem findSub_dot_joinNL :
    ∀ {L : List Chars} (t : Chars), (∀ l ∈ L, '\n' ∉ l ∧ l ≠ str ".") →
      findSub (str "\n.\n") ('\n' :: (joinNL L ++ '.' :: '\n' :: t)) =
        some ((joinNL L).length) := by
  intro L
  induction L with
  | nil =>
    intro t _
    show findSub (str "\n.\n") ('\n' :: '.' :: '\n' :: t) = some 0
    conv_lhs => unfold findSub
    rw [if_pos (by simp [str, List.isPrefixOf])]
  | cons l0 L' ih =>
    intro t h
    have h0 := h l0 (List.mem_cons_self _ _)
    have hsh : '\n' :: (joinNL (l0 :: L') ++ '.' :: '\n' :: t) =
        ('\n' :: l0) ++ '\n' :: (joinNL L' ++ '.' :: '\n' :: t) := by
      show '\n' :: ((l0 ++ '\n' :: joinNL L') ++ '.' :: '\n' :: t) = _
      simp [List.append_assoc]
    rw [hsh, findSub_dot_line h0.1 h0.2,
      ih t (fun l hl => h l (List.mem_cons_of_mem _ hl))]
    simp only [Option.map_some', Option.some.injEq]
    show (joinNL L').length + (l0.length + 1) = (l0 ++ '\n' :: joinNL L').length
    simp only [List.length_append, List.length_cons]
    omega

theorem findSub_dot_block {hd : Chars} (L : List Chars) (t : Chars)
    (hnlh : '\n' ∉ hd)
    (hL : ∀ l ∈ L, '\n' ∉ l ∧ l ≠ str ".") :
    findSub (str "\n.\n") (hd ++ '\n' :: (joinNL L ++ '.' :: '\n' :: t)) =
      some ((joinNL L).length + hd.length) := by
  rw [findSub_dot_skip _ hnlh, findSub_dot_joinNL t hL]
  rfl

theorem findSub_dot_block_pre {pre hd : Chars} (L : List Chars) (t : Chars)
    (hpre : pre = [] ∨ pre = ['\n'])
    (hnlh : '\n' ∉ hd) (hdne : hd ≠ []) (hdh : hd.head? ≠ some '.')
    (hL : ∀ l ∈ L, '\n' ∉ l ∧ l ≠ str ".") :
    findSub (str "\n.\n") (pre ++ (hd ++ '\n' :: (joinNL L ++ '.' :: '\n' :: t))) =
      some (pre.length + hd.length + (joinNL L).length) := by
  rcases hpre with h | h <;> subst h
  · rw [List.nil_append, findSub_dot_block L t hnlh hL]
    simp only [List.length_nil, Option.some.injEq]
    omega
  · show findSub (str "\n.\n")
        ('\n' :: (hd ++ '\n' :: (joinNL L ++ '.' :: '\n' :: t))) = _
    conv_lhs => unfold findSub
    rw [if_neg ?hpre2]
    case hpre2 =>
      cases hd with
      | nil => exact absurd rfl hdne
      | cons c cs =>
        intro hpf
        have hc : c ≠ '.' := fun h => hdh (by rw [h]; rfl)
        simp [str, List.isPrefixOf] at hpf
        exact hc hpf.1.symm
    rw [findSub_dot_block L t hnlh hL]
    simp only [Option.map_some', Option.some.injEq, List.length_cons,
      List.length_nil]
    omega

theorem intercalateNL_getLast_fwd :
    ∀ {L : List Chars} {l : Chars}, L.getLast? = some l → l ≠ [] →
      (intercalateNL L).getLast? = l.getLast? := by
  intro L
  induction L with
  | nil =>
    intro l h _
    simp at h
  | cons l0 L' ih =>
    intro l h hne
    cases L' with
    | nil =>
      simp at h
      subst h
      rfl
    | cons l1 L'' =>
      have h2 : (l1 :: L'').getLast? = some l := by
        rw [← h]
        exact List.getLast?_cons_cons.symm
      have h3 := ih h2 hne
      obtain ⟨c, hc⟩ : ∃ c, l.getLast? = some c := by
        cases hl : l.getLast? with
        | none => exact absurd (List.getLast?_eq_none_iff.mp hl) hne
        | some c => exact ⟨c, rfl⟩
      rw [intercalateNL_cons (by simp), hc]
      exact getLast?_append_some (getLast?_cons_some (h3.trans hc))

theorem intercalateNL_getLast_bwd :
    ∀ {L : List Chars} {ch : Char}, (intercalateNL L).getLast? = some ch →
      ch ≠ '\n' → ∃ l, L.getLast? = some l ∧ l.getLast? = some ch := by
  intro L
  induction L with
  | nil =>
    intro ch h _
    simp [intercalateNL] at h
  | cons l0 L' ih =>
    intro ch h hch
    cases L' with
    | nil => exact ⟨l0, rfl, h⟩
    | cons l1 L'' =>
      rw [intercalateNL_cons (by simp)] at h
      have h2 : (intercalateNL (l1 :: L'')).getLast? = some ch := by
        cases hX : (intercalateNL (l1 :: L'')).getLast? with
        | none =>
          have hXn : intercalateNL (l1 :: L'') = [] :=
            List.getLast?_eq_none_iff.mp hX
          rw [hXn] at h
          have : (l0 ++ ['\n']).getLast? = some ch := h
          rw [List.getLast?_concat] at this
          exact absurd (Option.some.inj this).symm hch
        | some c =>
          have hXne : intercalateNL (l1 :: L'') ≠ [] := by
            intro hc
            rw [hc] at hX
            simp at hX
          rw [getLast?_append_some (getLast?_cons_some hX)] at h
          exact h
      obtain ⟨l, hl, hlc⟩ := ih h2 hch
      refine ⟨l, ?_, hlc⟩
      rw [← hl]
      exact List.getLast?_cons_cons

/-- Parsing one serialized message block as the loop of
`impl FromStr for Oodle` sees it: the text up to (but excluding) the
final newline before the terminator line, trimmed. -/
theorem from_str_block (m : Message) (dl : Chars) (idx : Option Nat)
    (hnl : '\n' ∉ dl) (hcr2 : '\r' ∉ dl) (hdne : dl ≠ [])
    (hdlt : rustTrim dl = dl)
    (hpd : Message.parse_dateline dl = some (idx, m.date))
    (hcr : '\r' ∉ m.content)
    (hdd : (str "..") ∉ rustLines m.content)
    (htrim : rustTrim m.content = m.content)
    (hrefs : Message.find_references m.content = some m.references) :
    Message.from_str
        (rustTrim ((dl ++ '\n' :: Message.fmt_write_body m.content).dropLast)) =
      RustResult.ok ⟨idx.getD 0, m.date, m.content, m.references, []⟩ := by
  by_cases hc : m.content = []
  · have hels : (rustLines m.content).map escLine = [] := by rw [hc]; rfl
    have h1 : (dl ++ '\n' :: Message.fmt_write_body m.content).dropLast = dl := by
      unfold Message.fmt_write_body
      rw [hels]
      show (dl ++ ['\n']).dropLast = dl
      exact List.dropLast_concat
    rw [h1, hdlt, from_str_eq (rustLines_no_nl hnl hdne) hpd]
    have hb : rustTrim (parseBody []) = m.content := by rw [hc]; rfl
    rw [hb]
    unfold Message.new
    rw [hrefs]
    rfl
  · have hLne : rustLines m.content ≠ [] := rustLines_ne_nil hc
    have helsne : (rustLines m.content).map escLine ≠ [] := by
      intro h
      exact hLne (List.map_eq_nil.mp h)
    obtain ⟨ch, hch⟩ : ∃ ch, m.content.getLast? = some ch := by
      cases hl : m.content.getLast? with
      | none => exact absurd (List.getLast?_eq_none_iff.mp hl) hc
      | some c => exact ⟨c, rfl⟩
    have hwch : ch.isWhitespace = false :=
      rustTrim_last_not_ws (htrim.symm ▸ hch)
    have hchn : ch ≠ '\n' := by
      intro h
      subst h
      exact absurd hwch (by decide)
    have hINT : intercalateNL (rustLines m.content) = m.content :=
      intercalate_rustLines hc hcr (content_last_ne_nl hc htrim)
    obtain ⟨ll, hll, hllc⟩ := intercalateNL_getLast_bwd
      (by rw [hINT]; exact hch) hchn
    have hllne : ll ≠ [] := by
      intro h
      rw [h] at hllc
      simp at hllc
    have hmap : ((rustLines m.content).map escLine).getLast? =
        some (escLine ll) := by
      rw [List.getLast?_map, hll]
      rfl
    obtain ⟨c2, hc2, hw2⟩ := escLine_getLast_not_ws hllc hwch
    have hfwd : (intercalateNL ((rustLines m.content).map escLine)).getLast? =
        some c2 := by
      rw [intercalateNL_getLast_fwd hmap (escLine_ne_nil hllne)]
      exact hc2
    have h1 : (dl ++ '\n' :: Message.fmt_write_body m.content).dropLast =
        dl ++ '\n' :: intercalateNL ((rustLines m.content).map escLine) := by
      unfold Message.fmt_write_body
      rw [joinNL_eq_intercalate helsne]
      rw [show dl ++ '\n' ::
          (intercalateNL ((rustLines m.content).map escLine) ++ ['\n']) =
          (dl ++ '\n' :: intercalateNL ((rustLines m.content).map escLine)) ++
            ['\n'] by simp [List.append_assoc]]
      exact List.dropLast_concat
    have htrim2 : rustTrim (dl ++ '\n' ::
        intercalateNL ((rustLines m.content).map escLine)) =
        dl ++ '\n' :: intercalateNL ((rustLines m.content).map escLine) := by
      refine rustTrim_eq_self ?_ ?_
      · intro c hch2
        rw [List.head?_append_of_ne_nil _ hdne] at hch2
        exact rustTrim_head_not_ws (by rw [hdlt]; exact hch2)
      · intro c hcl
        rw [getLast?_append_some (getLast?_cons_some hfwd)] at hcl
        rw [← Option.some.inj hcl]
        exact hw2
    have hwfl : ∀ l ∈ (rustLines m.content).map escLine,
        '\n' ∉ l ∧ '\r' ∉ l := by
      intro l hl
      simp only [List.mem_map] at hl
      obtain ⟨l0, hl0, rfl⟩ := hl
      exact ⟨escLine_no_nl (rustLines_not_nl hl0),
        escLine_no_cr (fun hm2 => hcr (rustLines_subset hl0 '\r' hm2))⟩
    have hwll : ∀ ll2, ((rustLines m.content).map escLine).getLast? =
        some ll2 → ll2 ≠ [] := by
      intro ll2 hll2
      rw [hmap] at hll2
      rw [← Option.some.inj hll2]
      exact escLine_ne_nil hllne
    have hlines2 : rustLines (dl ++ '\n' ::
        intercalateNL ((rustLines m.content).map escLine)) =
        dl :: (rustLines m.content).map escLine := by
      rw [rustLines_append _ hnl, stripCR_of_not_mem hcr2,
        rustLines_intercalate helsne hwfl hwll]
    rw [h1, htrim2, from_str_eq hlines2 hpd, body_content hcr hdd htrim]
    unfold Message.new
    rw [hrefs]
    rfl

theorem parseLoopFuel_found {fuel : Nat} {o : Oodle} {s : Chars} {j : Nat}
    {m' : Message}
    (hf : findSub (str "\n.\n") s = some j)
    (hm : Message.from_str (rustTrim (s.take j)) = RustResult.ok m') :
    parseLoopFuel (fuel + 1) o s =
      parseLoopFuel fuel (o.push_message m').1 (s.drop (j + 3)) := by
  conv_lhs => unfold parseLoopFuel
  rw [hf]
  dsimp only
  rw [hm]

theorem parseLoopFuel_done {fuel : Nat} {o : Oodle} {s : Chars}
    (hf : findSub (str "\n.\n") s = none) (ht : rustTrim s = []) :
    parseLoopFuel (fuel + 1) o s = RustResult.ok o := by
  conv_lhs => unfold parseLoopFuel
  rw [hf]
  dsimp only
  rw [ht, if_pos rfl]

theorem fmtMsgs_cons_eq {idx : Nat} {m : Message} {rest : List Message}
    (h : idx = m.id) :
    Oodle.fmtMsgs idx (m :: rest) =
      '\n' :: (m.fmt_full false ++ str ".\n") ++ Oodle.fmtMsgs (idx + 1) rest := by
  conv_lhs => unfold Oodle.fmtMsgs
  rw [if_neg (not_not_intro h)]

theorem fmtMsgs_cons_ne {idx : Nat} {m : Message} {rest : List Message}
    (h : idx ≠ m.id) :
    Oodle.fmtMsgs idx (m :: rest) =
      '\n' :: (m.fmt_full true ++ str ".\n") ++ Oodle.fmtMsgs (m.id + 1) rest := by
  conv_lhs => unfold Oodle.fmtMsgs
  rw [if_pos h]

theorem fmtMsgs_head {e : Nat} {m : Message} {rest : List Message} :
    (Oodle.fmtMsgs e (m :: rest)).head? = some '\n' := by
  by_cases h : e = m.id
  · rw [fmtMsgs_cons_eq h]
    rfl
  · rw [fmtMsgs_cons_ne h]
    rfl

theorem fmtMsgs_length : ∀ (ms : List Message) (e : Nat),
    ms.length ≤ (Oodle.fmtMsgs e ms).length := by
  intro ms
  induction ms with
  | nil =>
    intro e
    simp [Oodle.fmtMsgs]
  | cons m rest ih =>
    intro e
    by_cases h : e = m.id
    · rw [fmtMsgs_cons_eq h]
      have := ih (e + 1)
      simp only [List.length_cons, List.cons_append, List.length_append]
      omega
    · rw [fmtMsgs_cons_ne h]
      have := ih (m.id + 1)
      simp only [List.length_cons, List.cons_append, List.length_append]
      omega

theorem next_idx_concat (o : Oodle) (m : Message) :
    ({ o with messages := o.messages ++ [m] } : Oodle).next_idx = m.id + 1 := by
  unfold Oodle.next_idx
  rw [List.getLast?_concat]

theorem push_message_keep (o : Oodle) (m : Message) (declared : Nat)
    (h : (declared = 0 ∧ o.next_idx = m.id) ∨
      (declared = m.id ∧ 0 < m.id ∧ o.next_idx ≤ m.id)) :
    (o.push_message ⟨declared, m.date, m.content, m.references, []⟩).1 =
      { o with messages := o.messages ++
        [⟨m.id, m.date, m.content, m.references, []⟩] } := by
  rw [push_message_eq]
  dsimp only
  rcases h with ⟨h0, he⟩ | ⟨h1, h2, h3⟩
  · subst h0
    rw [if_neg (by omega), he]
  · subst h1
    rw [if_pos (by omega), if_neg (by omega)]

theorem parseLoop_step_gen (o : Oodle) (msg : Message) (pre dl : Chars)
    (L : List Chars) (t : Chars) (fuel : Nat)
    (hpre : pre = [] ∨ pre = ['\n'])
    (hnl : '\n' ∉ dl) (hdne : dl ≠ []) (hdh : dl.head? ≠ some '.')
    (hL : ∀ l ∈ L, '\n' ∉ l ∧ l ≠ str ".")
    (hm : Message.from_str (rustTrim ((dl ++ '\n' :: joinNL L).dropLast)) =
      RustResult.ok msg) :
    parseLoopFuel (fuel + 1) o
        (pre ++ (dl ++ '\n' :: (joinNL L ++ '.' :: '\n' :: t))) =
      parseLoopFuel fuel (o.push_message msg).1 t := by
  have hfs := findSub_dot_block_pre L t hpre hnl hdne hdh hL
  have hws : ∀ c ∈ pre, c.isWhitespace = true := by
    rcases hpre with h | h <;> subst h
    · intro c hc
      simp at hc
    · intro c hc
      simp at hc
      subst hc
      decide
  have hinner : dl ++ '\n' :: (joinNL L ++ '.' :: '\n' :: t) =
      (dl ++ '\n' :: joinNL L) ++ '.' :: '\n' :: t := by
    simp [List.append_assoc]
  have htake : (pre ++ (dl ++ '\n' :: (joinNL L ++ '.' :: '\n' :: t))).take
      (pre.length + dl.length + (joinNL L).length) =
      pre ++ (dl ++ '\n' :: joinNL L).dropLast := by
    rw [hinner, Nat.add_assoc, List.take_append]
    congr 1
    rw [show dl.length + (joinNL L).length =
        (dl ++ '\n' :: joinNL L).length - 1 by
      simp only [List.length_append, List.length_cons]; omega]
    rw [List.take_append_of_le_length (by omega)]
    exact (List.dropLast_eq_take _).symm
  have hdrop : (pre ++ (dl ++ '\n' :: (joinNL L ++ '.' :: '\n' :: t))).drop
      (pre.length + dl.length + (joinNL L).length + 3) = t := by
    rw [show pre ++ (dl ++ '\n' :: (joinNL L ++ '.' :: '\n' :: t)) =
        (pre ++ (dl ++ '\n' :: joinNL L) ++ ['.', '\n']) ++ t by
      simp [List.append_assoc]]
    exact List.drop_left' (by
      simp only [List.length_append, List.length_cons, List.length_nil]
      omega)
  have hm2 : Message.from_str (rustTrim
      ((pre ++ (dl ++ '\n' :: (joinNL L ++ '.' :: '\n' :: t))).take
        (pre.length + dl.length + (joinNL L).length))) = RustResult.ok msg := by
    rw [htake, rustTrim_ws_pre _ hws]
    exact hm
  rw [parseLoopFuel_found hfs hm2, hdrop]

theorem parseLoop_step (o : Oodle) (m : Message) (pre dl : Chars)
    (idx : Option Nat) (t : Chars) (fuel : Nat)
    (hpre : pre = [] ∨ pre = ['\n'])
    (hnl : '\n' ∉ dl) (hcr2 : '\r' ∉ dl) (hdne : dl ≠ [])
    (hdh : dl.head? ≠ some '.') (hdlt : rustTrim dl = dl)
    (hpd : Message.parse_dateline dl = some (idx, m.date))
    (hcr : '\r' ∉ m.content) (hdd : (str "..") ∉ rustLines m.content)
    (htrim : rustTrim m.content = m.content)
    (hrefs : Message.find_references m.content = some m.references) :
    parseLoopFuel (fuel + 1) o
        (pre ++ (dl ++ '\n' ::
          (Message.fmt_write_body m.content ++ '.' :: '\n' :: t))) =
      parseLoopFuel fuel
        (o.push_message ⟨idx.getD 0, m.date, m.content, m.references, []⟩).1
        t := by
  have hL : ∀ l ∈ (rustLines m.content).map escLine,
      '\n' ∉ l ∧ l ≠ str "." := by
    intro l hl
    simp only [List.mem_map] at hl
    obtain ⟨l0, hl0, rfl⟩ := hl
    exact ⟨escLine_no_nl (rustLines_not_nl hl0), escLine_ne_dot l0⟩
  have hb := from_str_block m dl idx hnl hcr2 hdne hdlt hpd hcr hdd htrim hrefs
  have he : Message.fmt_write_body m.content =
      joinNL ((rustLines m.content).map escLine) := rfl
  rw [he] at hb ⊢
  exact parseLoop_step_gen o _ pre dl _ t fuel hpre hnl hdne hdh hL hb

theorem isDigit_not_ws {c : Char} (h : c.isDigit = true) :
    c.isWhitespace = false := by
  by_contra hw
  rw [Bool.not_eq_false] at hw
  unfold Char.isWhitespace at hw
  simp only [Bool.or_eq_true, decide_eq_true_eq] at hw
  rcases hw with ((h1 | h1) | h1) | h1 <;> subst h1 <;>
    exact absurd h (by decide)

theorem formatDate_head_ne_dot (dt : DateTime) :
    (formatDate dt).head? ≠ some '.' := by
  obtain ⟨c, hc, hd⟩ := formatDate_head_digit dt
  rw [hc]
  intro h
  rw [Option.some.inj h] at hd
  exact absurd hd (by decide)

theorem formatDate_trim (dt : DateTime) :
    rustTrim (formatDate dt) = formatDate dt := by
  refine rustTrim_eq_self ?_ ?_
  · intro c hc
    obtain ⟨c2, hc2, hd⟩ := formatDate_head_digit dt
    rw [hc2] at hc
    rw [← Option.some.inj hc]
    exact isDigit_not_ws hd
  · intro c hc
    obtain ⟨c2, hc2, hd⟩ := formatDate_last_digit dt
    rw [hc2] at hc
    rw [← Option.some.inj hc]
    exact isDigit_not_ws hd

theorem dlidx_left_ne_nil {dt : DateTime} {n : Nat} :
    formatDate dt ++ ' ' :: '(' :: natToStr n ≠ [] := by
  intro h
  exact formatDate_ne_nil dt (List.append_eq_nil.mp h).1

theorem dlidx_ne_nil {dt : DateTime} {n : Nat} :
    formatDate dt ++ ' ' :: '(' :: natToStr n ++ [')'] ≠ [] := by
  intro h
  exact dlidx_left_ne_nil (List.append_eq_nil.mp h).1

theorem dlidx_head_ne_dot {dt : DateTime} {n : Nat} :
    (formatDate dt ++ ' ' :: '(' :: natToStr n ++ [')']).head? ≠ some '.' := by
  rw [List.head?_append_of_ne_nil _ dlidx_left_ne_nil,
    List.head?_append_of_ne_nil _ (formatDate_ne_nil dt)]
  exact formatDate_head_ne_dot dt

theorem dlidx_trim {dt : DateTime} {n : Nat} :
    rustTrim (formatDate dt ++ ' ' :: '(' :: natToStr n ++ [')']) =
      formatDate dt ++ ' ' :: '(' :: natToStr n ++ [')'] := by
  refine rustTrim_eq_self ?_ ?_
  · intro c hc
    rw [List.head?_append_of_ne_nil _ dlidx_left_ne_nil,
      List.head?_append_of_ne_nil _ (formatDate_ne_nil dt)] at hc
    obtain ⟨c2, hc2, hd⟩ := formatDate_head_digit dt
    rw [hc2] at hc
    rw [← Option.some.inj hc]
    exact isDigit_not_ws hd
  · intro c hc
    rw [List.getLast?_concat] at hc
    rw [← Option.some.inj hc]
    decide

theorem cons_head_drop {l : Chars} {c : Char} (h : l.head? = some c) :
    l = c :: l.drop 1 := by
  cases l with
  | nil => simp at h
  | cons x xs =>
    simp only [List.head?_cons, Option.some.injEq] at h
    rw [h]
    rfl

/-- The message loop of `impl FromStr for Oodle` inverts the message
loop of `impl fmt::Display for Oodle`: parsing the serialized tail
appends exactly the serialized messages, ids included, provided the
loop starts at the document's expected index, the ids increase
strictly, and each message is well formed. -/
theorem parseLoop_fmtMsgs :
    ∀ (ms : List Message) (o : Oodle) (pre : Chars) (fuel : Nat),
      ms.length < fuel →
      (pre = [] ∨ pre = ['\n']) →
      (∀ m ∈ ms, m.date.Valid ∧ '\r' ∉ m.content ∧
        (str "..") ∉ rustLines m.content ∧ rustTrim m.content = m.content ∧
        Message.find_references m.content = some m.references ∧
        m.backlinks = []) →
      List.Chain' (fun a b => a.id < b.id) ms →
      (∀ m0, ms.head? = some m0 → o.next_idx ≤ m0.id) →
      parseLoopFuel fuel o (pre ++ (Oodle.fmtMsgs o.next_idx ms).drop 1) =
        RustResult.ok { o with messages := o.messages ++ ms } := by
  intro ms
  induction ms with
  | nil =>
    intro o pre fuel hfuel hpre _ _ _
    cases fuel with
    | zero => omega
    | succ f =>
      have hrec : ({ o with messages := o.messages ++ [] } : Oodle) = o := by
        rw [List.append_nil]
      rw [hrec]
      rcases hpre with h | h <;> subst h
      · show parseLoopFuel (f + 1) o [] = RustResult.ok o
        exact parseLoopFuel_done (by decide) rustTrim_nil
      · show parseLoopFuel (f + 1) o ['\n'] = RustResult.ok o
        exact parseLoopFuel_done (by decide) (by decide)
  | cons m rest ih =>
    intro o pre fuel hfuel hpre hwf hch hhead
    cases fuel with
    | zero => omega
    | succ f =>
      have hf2 : rest.length < f := by
        simp only [List.length_cons] at hfuel
        omega
      obtain ⟨hdt, hcr, hdd, htrim, hrefs, hbl⟩ :=
        hwf m (List.mem_cons_self _ _)
      obtain ⟨hhd, htl⟩ := List.chain'_cons'.mp hch
      have hhm : o.next_idx ≤ m.id := hhead m rfl
      have hme : (⟨m.id, m.date, m.content, m.references, []⟩ : Message) = m := by
        rw [← hbl]
      have hhead2 : ∀ m0, rest.head? = some m0 →
          ({ o with messages := o.messages ++ [m] } : Oodle).next_idx ≤
            m0.id := by
        intro m0 hm0
        rw [next_idx_concat]
        have := hhd m0 (Option.mem_def.mpr hm0)
        omega
      have hcont : parseLoopFuel f
          ({ o with messages := o.messages ++ [m] } : Oodle)
          (Oodle.fmtMsgs (m.id + 1) rest) =
          RustResult.ok { o with messages := o.messages ++ m :: rest } := by
        have hnext : ({ o with messages := o.messages ++ [m] } : Oodle).next_idx
            = m.id + 1 := next_idx_concat o m
        cases rest with
        | nil =>
          cases f with
          | zero => omega
          | succ f2 =>
            show parseLoopFuel (f2 + 1)
              { o with messages := o.messages ++ [m] } [] = _
            rw [parseLoopFuel_done (by decide) rustTrim_nil]
        | cons m1 r1 =>
          have h3 := ih { o with messages := o.messages ++ [m] } ['\n'] f hf2
            (Or.inr rfl) (fun m2 hm2 => hwf m2 (List.mem_cons_of_mem _ hm2))
            htl hhead2
          rw [hnext] at h3
          have hb2 : ['\n'] ++ (Oodle.fmtMsgs (m.id + 1) (m1 :: r1)).drop 1 =
              Oodle.fmtMsgs (m.id + 1) (m1 :: r1) := by
            conv_rhs => rw [cons_head_drop fmtMsgs_head]
            rfl
          rw [hb2] at h3
          rw [h3]
          congr 1
          simp [List.append_assoc]
      by_cases he : o.next_idx = m.id
      · rw [fmtMsgs_cons_eq he, he]
        show parseLoopFuel (f + 1) o
          (pre ++ ((m.fmt_full false ++ str ".\n") ++
            Oodle.fmtMsgs (m.id + 1) rest)) =
          RustResult.ok { o with messages := o.messages ++ m :: rest }
        have hsh : pre ++ ((m.fmt_full false ++ str ".\n") ++
            Oodle.fmtMsgs (m.id + 1) rest) =
            pre ++ (formatDate m.date ++ '\n' ::
              (Message.fmt_write_body m.content ++ '.' :: '\n' ::
                Oodle.fmtMsgs (m.id + 1) rest)) := by
          rw [fmt_full_false_eq, show (str ".\n") = ['.', '\n'] from rfl]
          simp [List.append_assoc]
        rw [hsh, parseLoop_step o m pre (formatDate m.date) none _ f hpre
          formatDate_no_nl formatDate_no_cr (formatDate_ne_nil m.date)
          (formatDate_head_ne_dot m.date) (formatDate_trim m.date)
          (parse_dateline_noidx hdt) hcr hdd htrim hrefs]
        rw [push_message_keep o m ((none : Option Nat).getD 0)
          (Or.inl ⟨rfl, he⟩), hme]
        exact hcont
      · have hlt : o.next_idx < m.id := lt_of_le_of_ne hhm he
        rw [fmtMsgs_cons_ne he]
        show parseLoopFuel (f + 1) o
          (pre ++ ((m.fmt_full true ++ str ".\n") ++
            Oodle.fmtMsgs (m.id + 1) rest)) =
          RustResult.ok { o with messages := o.messages ++ m :: rest }
        have hsh : pre ++ ((m.fmt_full true ++ str ".\n") ++
            Oodle.fmtMsgs (m.id + 1) rest) =
            pre ++ ((formatDate m.date ++ ' ' :: '(' :: natToStr m.id ++ [')'])
              ++ '\n' :: (Message.fmt_write_body m.content ++ '.' :: '\n' ::
                Oodle.fmtMsgs (m.id + 1) rest)) := by
          rw [fmt_full_true_eq, show (str ".\n") = ['.', '\n'] from rfl]
          simp [List.append_assoc]
        rw [hsh, parseLoop_step o m pre
          (formatDate m.date ++ ' ' :: '(' :: natToStr m.id ++ [')'])
          (some m.id) _ f hpre dlidx_no_nl dlidx_no_cr dlidx_ne_nil
          dlidx_head_ne_dot dlidx_trim (parse_dateline_idx m.id hdt)
          hcr hdd htrim hrefs]
        rw [push_message_keep o m ((some m.id : Option Nat).getD 0)
          (Or.inr ⟨rfl, by omega, by omega⟩), hme]
        exact hcont

theorem fmt_shape (o : Oodle) :
    Oodle.fmt o = (str "-= " ++ o.name ++ str " =-") ++ '\n' ::
      (('[' :: o.id ++ [']']) ++ '\n' :: Oodle.fmtMsgs 0 o.messages) := by
  unfold Oodle.fmt
  rw [show (str " =-\n") = str " =-" ++ ['\n'] from rfl,
    show (str "]\n") = [']'] ++ ['\n'] from rfl]
  simp [List.append_assoc]

theorem header_no_nl {name : Chars} (h : '\n' ∉ name) :
    '\n' ∉ str "-= " ++ name ++ str " =-" := by
  intro hm
  rcases List.mem_append.mp hm with hm1 | hm1
  · rcases List.mem_append.mp hm1 with hm2 | hm2
    · exact absurd hm2 (by decide)
    · exact h hm2
  · exact absurd hm1 (by decide)

theorem idline_no_nl {idv : Chars} (h : '\n' ∉ idv) :
    '\n' ∉ '[' :: idv ++ [']'] := by
  intro hm
  rcases List.mem_append.mp hm with hm1 | hm1
  · rcases List.mem_cons.mp hm1 with hm2 | hm2
    · exact absurd hm2 (by decide)
    · exact h hm2
  · exact absurd hm1 (by decide)

theorem extract_title_fmt {name : Chars} (h : rustTrim name = name) :
    Oodle.extract_title (str "-= " ++ name ++ str " =-") = some name := by
  unfold Oodle.extract_title
  have h1 : str "-= " ++ name ++ str " =-" =
      str "-=" ++ ((' ' :: name) ++ str " =-") := by
    rw [show (str "-= ") = str "-=" ++ [' '] from rfl]
    simp [List.append_assoc]
  rw [h1, stripPre_self, Option.some_bind]
  have h2 : (' ' :: name) ++ str " =-" =
      ((' ' :: name) ++ [' ']) ++ str "=-" := by
    rw [show (str " =-") = [' '] ++ str "=-" from rfl]
    simp [List.append_assoc]
  rw [h2, stripSuf_self, Option.map_some']
  rw [show (' ' :: name) ++ [' '] = [' '] ++ (name ++ [' ']) from by simp]
  rw [rustTrim_ws_pre _ (by intro c hc; simp at hc; subst hc; decide),
    rustTrim_ws_suffix _ (by intro c hc; simp at hc; subst hc; decide), h]

theorem extract_id_fmt (idv : Chars) :
    Oodle.extract_id ('[' :: idv ++ [']']) = some idv := by
  unfold Oodle.extract_id
  have h1 : ('[' :: idv) ++ [']'] = str "[" ++ (idv ++ str "]") := rfl
  rw [h1, stripPre_self, Option.some_bind, stripSuf_self]

theorem from_str_fmt_header (o : Oodle) (fresh : Chars)
    (hnn : '\n' ∉ o.name) (htn : rustTrim o.name = o.name)
    (hni : '\n' ∉ o.id) :
    Oodle.from_str fresh (Oodle.fmt o) =
      Oodle.from_str_rest o.name o.id (Oodle.fmtMsgs 0 o.messages) := by
  unfold Oodle.from_str
  rw [fmt_shape, findChar_append _ _ (header_no_nl hnn)]
  dsimp only
  rw [List.take_left, extract_title_fmt htn]
  dsimp only
  have hdrop1 : ((str "-= " ++ o.name ++ str " =-") ++ '\n' ::
      (('[' :: o.id ++ [']']) ++ '\n' :: Oodle.fmtMsgs 0 o.messages)).drop
      ((str "-= " ++ o.name ++ str " =-").length + 1) =
      ('[' :: o.id ++ [']']) ++ '\n' :: Oodle.fmtMsgs 0 o.messages := by
    rw [show (str "-= " ++ o.name ++ str " =-") ++ '\n' ::
        (('[' :: o.id ++ [']']) ++ '\n' :: Oodle.fmtMsgs 0 o.messages) =
        ((str "-= " ++ o.name ++ str " =-") ++ ['\n']) ++
        (('[' :: o.id ++ [']']) ++ '\n' :: Oodle.fmtMsgs 0 o.messages) from by
      simp]
    exact List.drop_left' (by
      simp only [List.length_append, List.length_cons, List.length_nil])
  rw [hdrop1, findChar_append _ _ (idline_no_nl hni)]
  dsimp only
  rw [List.take_left, extract_id_fmt]
  dsimp only
  have hdrop2 : (('[' :: o.id ++ [']']) ++
      '\n' :: Oodle.fmtMsgs 0 o.messages).drop
      (('[' :: o.id ++ [']']).length + 1) = Oodle.fmtMsgs 0 o.messages := by
    rw [show ('[' :: o.id ++ [']']) ++ '\n' :: Oodle.fmtMsgs 0 o.messages =
        (('[' :: o.id ++ [']']) ++ ['\n']) ++ Oodle.fmtMsgs 0 o.messages from by
      simp]
    exact List.drop_left' (by
      simp only [List.length_append, List.length_cons, List.length_nil])
  rw [hdrop2]

theorem fmtMsgs_cons_length (e : Nat) (m : Message) (rest : List Message) :
    rest.length + 3 ≤ (Oodle.fmtMsgs e (m :: rest)).length := by
  by_cases h : e = m.id
  · rw [fmtMsgs_cons_eq h, show (str ".\n") = ['.', '\n'] from rfl]
    have := fmtMsgs_length rest (e + 1)
    simp only [List.cons_append, List.length_cons, List.length_append,
      List.length_nil]
    omega
  · rw [fmtMsgs_cons_ne h, show (str ".\n") = ['.', '\n'] from rfl]
    have := fmtMsgs_length rest (m.id + 1)
    simp only [List.cons_append, List.length_cons, List.length_append,
      List.length_nil]
    omega

theorem from_str_fmt_rest (o : Oodle)
    (hbl : o.backlinks = [])
    (hch : List.Chain' (fun a b => a.id < b.id) o.messages)
    (hwf : ∀ m ∈ o.messages, m.date.Valid ∧ '\r' ∉ m.content ∧
      (str "..") ∉ rustLines m.content ∧ rustTrim m.content = m.content ∧
      Message.find_references m.content = some m.references ∧
      m.backlinks = []) :
    Oodle.from_str_rest o.name o.id (Oodle.fmtMsgs 0 o.messages) =
      RustResult.ok { o with file := str "/tmp" } := by
  unfold Oodle.from_str_rest
  cases hms : o.messages with
  | nil =>
    show parseLoopFuel (0 + 1) ⟨o.id, o.name, str "/tmp", [], []⟩ [] = _
    rw [parseLoopFuel_done (by decide) rustTrim_nil, hbl]
  | cons m rest =>
    rw [hms] at hch hwf
    simp only [fmtMsgs_head, if_true]
    have hfu : (m :: rest).length <
        ((Oodle.fmtMsgs 0 (m :: rest)).drop 1).length + 1 := by
      have h1 := fmtMsgs_cons_length 0 m rest
      simp only [List.length_cons, List.length_drop]
      omega
    have hl := parseLoop_fmtMsgs (m :: rest)
      ⟨o.id, o.name, str "/tmp", [], []⟩ []
      (((Oodle.fmtMsgs 0 (m :: rest)).drop 1).length + 1) hfu (Or.inl rfl)
      hwf hch (fun m0 _ => Nat.zero_le m0.id)
    rw [List.nil_append,
      show (⟨o.id, o.name, str "/tmp", [], []⟩ : Oodle).next_idx = 0 from rfl]
      at hl
    rw [hl, hbl]
    rfl

/-! Claim C7. -/

/-- Claim C7, amended.  Round trip of the document codec: for every
document whose name is newline-free and trim-stable, whose identifier
is newline-free, whose backlinks are empty, whose message ids increase
strictly, and whose every message is well formed (valid timestamp, no
carriage return, no content line equal to `..`, trim-stable content,
references derived from the content, empty backlinks), parsing the
serialization returns the document itself with the transient backing
file path replaced by the placeholder `/tmp`.  (The original claim,
which allows a content line `..`, is refuted by
`oodle_roundtrip_counterexample`.) -/
theorem oodle_roundtrip_amended (o : Oodle) (fresh : Chars)
    (hnn : '\n' ∉ o.name) (htn : rustTrim o.name = o.name)
    (hni : '\n' ∉ o.id) (hbl : o.backlinks = [])
    (hch : List.Chain' (fun a b => a.id < b.id) o.messages)
    (hwf : ∀ m ∈ o.messages, m.date.Valid ∧ '\r' ∉ m.content ∧
      (str "..") ∉ rustLines m.content ∧ rustTrim m.content = m.content ∧
      Message.find_references m.content = some m.references ∧
      m.backlinks = []) :
    Oodle.from_str fresh (Oodle.fmt o) =
      RustResult.ok { o with file := str "/tmp" } := by
  rw [from_str_fmt_header o fresh hnn htn hni]
  exact from_str_fmt_rest o hbl hch hwf

/-- Claim C7, witness: a concrete two-message document (with an index
jump, so one dateline carries a printed index) round trips. -/
theorem oodle_roundtrip_amended_witness :
    Oodle.from_str (str "zz")
      (Oodle.fmt ⟨str "id1", str "Title", str "/x",
        [⟨0, dtEx, str "hello", [], []⟩, ⟨2, dtEx, str "a b", [], []⟩], []⟩) =
      RustResult.ok ⟨str "id1", str "Title", str "/tmp",
        [⟨0, dtEx, str "hello", [], []⟩, ⟨2, dtEx, str "a b", [], []⟩], []⟩ :=
  oodle_roundtrip_amended
    ⟨str "id1", str "Title", str "/x",
      [⟨0, dtEx, str "hello", [], []⟩, ⟨2, dtEx, str "a b", [], []⟩], []⟩
    (str "zz") (by decide) (by decide) (by decide) rfl
    (List.chain'_cons.mpr ⟨by decide, List.chain'_singleton _⟩)
    (by decide)

/-- Claim C7, counterexample to the unamended claim: a document whose
single message content is the line `..` — which the serializer does NOT
escape (only `.` is escaped) — parses back with content `.`, a
different document.  (The claim excepts only unescaped `.` lines, and
by construction the serializer never emits one for `.` content; the
`..` line is the case its construction misses.) -/
theorem oodle_roundtrip_counterexample :
    (∀ fresh : Chars,
      Oodle.from_str fresh
        (Oodle.fmt ⟨str "i", str "T", str "/tmp",
          [⟨0, dtEx, str "..", [], []⟩], []⟩) =
        RustResult.ok ⟨str "i", str "T", str "/tmp",
          [⟨0, dtEx, str ".", [], []⟩], []⟩) ∧
    (⟨str "i", str "T", str "/tmp", [⟨0, dtEx, str ".", [], []⟩], []⟩ : Oodle)
      ≠ ⟨str "i", str "T", str "/tmp", [⟨0, dtEx, str "..", [], []⟩], []⟩ := by
  constructor
  · intro fresh
    rfl
  · decide
